import Mathlib

namespace Fsdb

/-! Shallow embedding of `fsdb/fsdb.py` (class `FSDB`).

The on-disk state is modelled as a flat two-level tree: the root maps
table names to tables (directories); a table maps entry names to
entries.  A record file stores `some doc` when its bytes parse as a
JSON document and `none` when they are malformed; an index directory
stores its symbolic links as an association list (entry name = string
form of the indexed field value, payload = the primary key `pk` such
that the real on-disk link target is the relative path `../pk`).
Documents are modelled as association lists from field names to the
string form `str(value)` of the field value, which is the only view of
a value the engine ever uses.

Path names are treated as flat strings.  Joining a string to a directory
path names a single entry of that directory exactly when the string is a
plain segment: it contains no `/` and is none of `""`, `"."`, `".."`
(`pathlib` drops empty and `.` parts, resolves `..` upward and splits at
`/`).  The engine validates table names and keys itself (`_safe_name`);
where it does not validate (index values, the table name of `lspk`,
`drop` and `query_links`), the definitions below either carry an explicit
model-boundary error (`Err.escapesModel`) or the theorems carry the
plainness of the quantified names as hypotheses. -/

/-- Containment of `sub` as a contiguous run inside `l`. -/
def infixOf (sub : List Char) : List Char → Bool
  | [] => sub.isEmpty
  | c :: t => sub.isPrefixOf (c :: t) || infixOf sub t

/-- Python substring test `sub in s`, used by `_safe_name` and the `":" in name` checks. -/
def strContains (s sub : String) : Bool :=
  infixOf sub.data s.data

/-- Mirrors `FSDB._safe_name`: the name is safe iff it contains none of
`".."`, `"/"`, `"\"`.  The Python method raises `ValueError` (UnsafeName)
exactly when this returns `false`. -/
def safeName (name : String) : Bool :=
  !(strContains name ".." || strContains name "/" || strContains name "\\")

/-- A string that names a single directory entry when joined to a path:
`pathlib` drops `""` and `"."` path parts, resolves `".."` upward, and
splits at `/`; every other string is an ordinary entry name (`\` is an
ordinary character in a POSIX filename). -/
def plainSeg (s : String) : Bool :=
  !strContains s "/" && s != "" && s != "." && s != ".."

/-- Python truthiness of `current` in `update` and `delete`
(`if not current:`): `None` and the empty document `{}` are falsy. -/
def docTruthy : Option (List (String × String)) → Bool
  | some (_ :: _) => true
  | _ => false

/-- First-match association-list lookup (directory entry lookup / Python dict access). -/
def alookup {α : Type} : List (String × α) → String → Option α
  | [], _ => none
  | (k, v) :: t, k2 => if k = k2 then some v else alookup t k2

/-- Replace the first binding of `k` (or append a fresh one): a file write /
symlink creation at name `k` inside a directory. -/
def aset {α : Type} : List (String × α) → String → α → List (String × α)
  | [], k, v => [(k, v)]
  | (k1, v1) :: t, k, v => if k1 = k then (k, v) :: t else (k1, v1) :: aset t k v

/-- Remove every binding of `k`: `unlink` of the entry named `k`. -/
def aerase {α : Type} (l : List (String × α)) (k : String) : List (String × α) :=
  l.filter (fun p => p.1 != k)

/-- Directory well-formedness: entry names are distinct. -/
abbrev keysND {α : Type} (l : List (String × α)) : Prop :=
  (l.map Prod.fst).Nodup

/-- A JSON document as the engine sees it: field name to `str(value)`. -/
abbrev Doc := List (String × String)

/-- One directory entry of a table: a record file (with parsed content,
`none` for malformed bytes) or an index directory `@field` holding
symbolic links `value -> ../pk`. -/
inductive Entry : Type where
  | file (c : Option Doc)
  | idx (es : List (String × String))
deriving DecidableEq, Repr

/-- A table directory. -/
abbrev Table := List (String × Entry)

/-- The root directory. -/
abbrev FS := List (String × Table)

/-- Python `str.lstrip("@")`: drop every leading `'@'`, as used for
`field = idxdir.name.lstrip("@")` in `_update_index`. -/
def stripAts (s : String) : String :=
  String.mk (s.data.dropWhile (fun c => c == '@'))

/-- Matching a `*`: try the rest of the pattern (`m`) against every
suffix of the name. -/
def globTry (m : List Char → Bool) : List Char → Bool
  | [] => m []
  | c :: t => m (c :: t) || globTry m t

/-- Glob matching on characters, for the patterns the engine builds:
literals, `*` (any sequence) and `?` (any one character).  `pathlib`
glob patterns also support `[...]` classes, which the engine itself
never constructs; names quantified in the theorems below avoid `[`. -/
def globChars : List Char → List Char → Bool
  | [], s => s.isEmpty
  | '*' :: ps, s => globTry (globChars ps) s
  | '?' :: ps, s =>
    match s with
    | [] => false
    | _ :: t => globChars ps t
  | p :: ps, s =>
    match s with
    | [] => false
    | c :: t => p == c && globChars ps t

/-- Glob match of a whole name against a pattern (note `pathlib.Path.glob`
does match names starting with a dot, unlike the `glob` module). -/
def globMatch (pat name : String) : Bool :=
  globChars pat.data name.data

/-- Python `name.partition(":")` projected to components 0 and 2: the part
before the first colon and the part after it. -/
def splitColon (s : String) : String × String :=
  (String.mk (s.data.takeWhile (fun c => c != ':')),
   String.mk ((s.data.dropWhile (fun c => c != ':')).drop 1))

/-- Error taxonomy of the engine.  The Python code raises `ValueError` for
unsafe names (`unsafeName`), `FileNotFoundError` with distinct messages
for a missing table vs. a missing record (`tableNotFound`,
`recordNotFound`), and `FileExistsError` for a present record
(`alreadyExists`).  `indexError` stands for the `OSError` raised inside
`_index` when the entry path `@field/value` cannot be created or replaced
(`FileNotFoundError` from `symlink_to` when the `@field` directory is
missing — e.g. reached through a multi-`@` directory name, whose
`lstrip("@")` field re-resolves to a different path — and
`IsADirectoryError`/`NotADirectoryError` from `unlink` when the joined
path is not a plain entry, e.g. a value of `""`, `"."` or `".."`); this
exception is raised *after* the caller has already written the record
file.  `escapesModel` is a model-boundary marker, not a Python exception:
it flags the branches whose real effect leaves the flat single-segment
model (`drop` of a non-plain table name removes the tree at the joined
path, possibly outside the root; `_write` with an empty key moves the
temp file *into* the table directory under a fresh uuid name); no theorem
below asserts anything about real behaviour on these branches, and the
well-formedness side conditions of the theorems exclude them. -/
inductive Err : Type where
  | unsafeName
  | tableNotFound
  | recordNotFound
  | alreadyExists
  | indexError
  | escapesModel
deriving DecidableEq, Repr

/-- Decidable equality of results, used to evaluate the theorems on
concrete stores. -/
instance {e a : Type} [DecidableEq e] [DecidableEq a] :
    DecidableEq (Except e a) := fun x y =>
  match x, y with
  | .error e1, .error e2 =>
    if h : e1 = e2 then isTrue (by rw [h])
    else isFalse (fun hc => by
      injection hc with h2
      exact h h2)
  | .ok a1, .ok a2 =>
    if h : a1 = a2 then isTrue (by rw [h])
    else isFalse (fun hc => by
      injection hc with h2
      exact h h2)
  | .error e1, .ok a2 => isFalse (fun hc => Except.noConfusion hc)
  | .ok a1, .error e2 => isFalse (fun hc => Except.noConfusion hc)

/-- Validation performed by `_target_f(table, name)`: `_safe_name(table)`
always, `_safe_name(name)` only when `name` is truthy (non-empty). -/
def nameOk (table name : String) : Bool :=
  safeName table && (name == "" || safeName name)

/-- Existence of the path `root/table/name` built by `_target_f`: for the
empty name the path is the table directory itself. -/
def targetExists (fs : FS) (table name : String) : Bool :=
  match alookup fs table with
  | none => false
  | some tb => if name = "" then true else (alookup tb name).isSome

/-- Mirrors `FSDB._index`: build `_target_f(table, "@" + field) / value`
(so `_safe_name` runs on `"@" + field` and raises `ValueError` when it is
unsafe), `unlink(missing_ok=True)` the entry, and `symlink_to("../pk")`.
When `value` is not a plain segment the joined path does not name an
entry of the `@field` directory: for `""`/`"."`/`".."` the `unlink`
raises `IsADirectoryError`, and for a value containing `/` the deeper
path does not exist in any state the engine itself builds, so
`symlink_to` raises `FileNotFoundError`; both are modelled as
`indexError` (a value containing `/` could in principle resolve
elsewhere on a hand-built disk, which the flat model cannot express —
every theorem below excludes such values by hypothesis).  When the
`@field` path is missing or is a plain file, `symlink_to` (resp.
`unlink`) raises, also `indexError`. -/
def indexSet (tb : Table) (pk field value : String) : Except Err Table :=
  if !safeName ("@" ++ field) then .error .unsafeName
  else if !plainSeg value then .error .indexError
  else
    match alookup tb ("@" ++ field) with
    | some (.idx es) => .ok (aset tb ("@" ++ field) (.idx (aset es value pk)))
    | _ => .error .indexError

/-- The effect of a successful `_index` call: replace the symbolic link
`@field/value` by one pointing at `../pk`.  `indexSet` returns `.ok` of
exactly this table whenever it does not raise (`indexSet_ok_eq`,
`indexSet_ok`). -/
def indexApply (tb : Table) (pk field value : String) : Table :=
  match alookup tb ("@" ++ field) with
  | some (.idx es) => aset tb ("@" ++ field) (.idx (aset es value pk))
  | _ => tb

/-- One iteration of the `_update_index` loop for the directory entry named
`dname` matched by `glob("@*")`: skip non-directories; drop the link for
the old value when it still points at `../pk` (the old-value side tests
`is_symlink()` before acting and never raises; the lookup translation of
`idxdir / str(old[field])` is faithful for plain old values, which every
theorem below guarantees by hypothesis); then re-create the link for the
new value through `_index`, which can raise (`indexSet`). -/
def updStep (pk : String) (old new : Option Doc) (tb : Table) (dname : String) :
    Except Err Table :=
  match alookup tb dname with
  | some (.idx es) =>
    let field := stripAts dname
    let tb1 :=
      match old with
      | some o =>
        match alookup o field with
        | some ov =>
          match alookup es ov with
          | some k => if k = pk then aset tb dname (.idx (aerase es ov)) else tb
          | none => tb
        | none => tb
      | none => tb
    match new with
    | some nd =>
      match alookup nd field with
      | some nv => indexSet tb1 pk field nv
      | none => .ok tb1
    | none => .ok tb1
  | _ => .ok tb

/-- The effect of one non-raising `_update_index` iteration; `updStep`
returns `.ok` of exactly this table whenever it does not raise
(`updStep_ok_eq`, `updStep_wf_ok`). -/
def stepApply (pk : String) (old new : Option Doc) (tb : Table) (dname : String) : Table :=
  match alookup tb dname with
  | some (.idx es) =>
    let field := stripAts dname
    let tb1 :=
      match old with
      | some o =>
        match alookup o field with
        | some ov =>
          match alookup es ov with
          | some k => if k = pk then aset tb dname (.idx (aerase es ov)) else tb
          | none => tb
        | none => tb
      | none => tb
    match new with
    | some nd =>
      match alookup nd field with
      | some nv => indexApply tb1 pk field nv
      | none => tb1
    | none => tb1
  | _ => tb

/-- The names in a table matched by `(root / table).glob("@*")`. -/
def globDirs (tb : Table) : List String :=
  (tb.filter (fun p => globMatch "@*" p.1)).map Prod.fst

/-- The `_update_index` loop over a list of directory names: stop at the
first raising iteration.  When an iteration raises, the real filesystem
keeps the mutations of the earlier iterations (and the record file the
caller already wrote); the model's error result does not carry that
partial state — every theorem below either proves the error cannot occur
under its hypotheses, or asserts only that the operation fails. -/
def updFold (pk : String) (old new : Option Doc) : Table → List String → Except Err Table
  | tb, [] => .ok tb
  | tb, dn :: ds =>
    match updStep pk old new tb dn with
    | .ok tb2 => updFold pk old new tb2 ds
    | .error e => .error e

/-- Mirrors `FSDB._update_index(table, pk, old, new)`: iterate the
synchronization rule over every `@*` entry of the table (in directory
order, standing for the unspecified `glob` enumeration order).  A missing
table directory makes the glob yield nothing. -/
def updateIndex (fs : FS) (table pk : String) (old new : Option Doc) :
    Except Err FS :=
  match alookup fs table with
  | none => .ok fs
  | some tb =>
    match updFold pk old new tb (globDirs tb) with
    | .ok tb2 => .ok (aset fs table tb2)
    | .error e => .error e

/-- The effect of a non-raising `_update_index` call; `updateIndex`
returns `.ok` of exactly this store whenever it does not raise
(`updateIndex_ok_eq`, `updateIndex_wf_ok`, `updateIndex_none_ok`). -/
def syncApply (fs : FS) (table pk : String) (old new : Option Doc) : FS :=
  match alookup fs table with
  | none => fs
  | some tb => aset fs table ((globDirs tb).foldl (stepApply pk old new) tb)

/-- Mirrors `FSDB._write`: check the table directory exists, then
atomically place the serialized document at `root/table/pk`.  When
`pk = ""` the real `shutil.move` succeeds but drops the temp file *into*
the table directory under a fresh uuid name, which the flat model cannot
express: that branch (reachable only through `upsert` with an empty key,
which every well-formed call sequence excludes) is marked
`escapesModel`. -/
def write (fs : FS) (table pk : String) (d : Doc) : Except Err FS :=
  if !safeName table then .error .unsafeName
  else
    match alookup fs table with
    | none => .error .tableNotFound
    | some tb =>
      if !nameOk table pk then .error .unsafeName
      else if pk = "" then .error .escapesModel
      else .ok (aset fs table (aset tb pk (.file (some d))))

/-- Mirrors `FSDB.create`: `mkdir(exist_ok=True)` of the table directory. -/
def create (fs : FS) (table : String) : Except Err FS :=
  if !safeName table then .error .unsafeName
  else
    match alookup fs table with
    | some _ => .ok fs
    | none => .ok (aset fs table [])

/-- Mirrors `FSDB.lspk`: error when the table directory is missing (note:
no `_safe_name` validation here), otherwise the names of the plain files
whose name has no colon. -/
def lspk (fs : FS) (table : String) : Except Err (List String) :=
  match alookup fs table with
  | none => .error .tableNotFound
  | some tb =>
    .ok ((tb.filter (fun p =>
      (match p.2 with | .file _ => true | .idx _ => false)
        && !strContains p.1 ":")).map Prod.fst)

/-- Mirrors `FSDB.insert`: fail if the target path exists, else write and
synchronize indexes with `old = None` (the index step can raise after the
record file is in place). -/
def insert (fs : FS) (table pk : String) (d : Doc) : Except Err FS :=
  if !nameOk table pk then .error .unsafeName
  else if targetExists fs table pk then .error .alreadyExists
  else
    match write fs table pk d with
    | .error e => .error e
    | .ok fs1 => updateIndex fs1 table pk none (some d)

/-- Mirrors `FSDB.get`: parse the record file; a missing path, a
non-file, or malformed content all yield `none`. -/
def get (fs : FS) (table pk : String) : Except Err (Option Doc) :=
  if !nameOk table pk then .error .unsafeName
  else
    .ok (match alookup fs table with
      | none => none
      | some tb =>
        if pk = "" then none
        else
          match alookup tb pk with
          | some (.file (some d)) => some d
          | _ => none)

/-- Mirrors `FSDB.update`: read the current record, fail when `not
current` — which is true both for an absent record *and* for a record
holding the empty document `{}` (Python truthiness) — else write and
synchronize indexes over the old-to-new transition. -/
def update (fs : FS) (table pk : String) (d : Doc) : Except Err FS :=
  match get fs table pk with
  | .error e => .error e
  | .ok cur =>
    if !docTruthy cur then .error .recordNotFound
    else
      match write fs table pk d with
      | .error e => .error e
      | .ok fs1 => updateIndex fs1 table pk cur (some d)

/-- Mirrors `FSDB.upsert`: like `update` without the existence (truthiness)
requirement. -/
def upsert (fs : FS) (table pk : String) (d : Doc) : Except Err FS :=
  match get fs table pk with
  | .error e => .error e
  | .ok cur =>
    match write fs table pk d with
    | .error e => .error e
    | .ok fs1 => updateIndex fs1 table pk cur (some d)

/-- Record-file removal, `p.unlink()` inside `delete`. -/
def eraseRec (fs : FS) (table pk : String) : FS :=
  match alookup fs table with
  | none => fs
  | some tb => aset fs table (aerase tb pk)

/-- Mirrors `FSDB.delete`: `False` when `not current` — true both for an
absent record and for a record holding the empty document `{}` (Python
truthiness), in which case nothing is removed — otherwise unlink the
file, synchronize indexes with `new = None` (which never raises: the
old-value side only unlinks behind an `is_symlink()` test), return
`True`. -/
def delete (fs : FS) (table pk : String) : Except Err (FS × Bool) :=
  match get fs table pk with
  | .error e => .error e
  | .ok cur =>
    if !docTruthy cur then .ok (fs, false)
    else if targetExists fs table pk then
      match updateIndex (eraseRec fs table pk) table pk cur none with
      | .ok fs2 => .ok (fs2, true)
      | .error e => .error e
    else .ok (fs, false)

/-- Mirrors `FSDB.drop`: recursive removal of the tree at `root / table`,
with no `_safe_name` validation (so `drop` can never raise UnsafeName).
For a table name that is not a plain segment the joined path leaves the
flat model — `drop("t/@f")` removes an index directory inside a table,
`drop("../x")` removes a path outside the root, `drop("")` and
`drop(".")` remove the root itself — so that branch is marked
`escapesModel`; well-formed call sequences exclude it. -/
def drop (fs : FS) (table : String) : Except Err (FS × Bool) :=
  if !plainSeg table then .error .escapesModel
  else
    match alookup fs table with
    | some _ => .ok (aerase fs table, true)
    | none => .ok (fs, false)

/-- Records of a table enumerated by `FSDB.scan`: entries matching the
pattern that are plain files, have no colon in their name, and parse. -/
def scanTable (tb : Table) (pattern : String) : List (String × Doc) :=
  tb.filterMap (fun p =>
    if globMatch pattern p.1 && !strContains p.1 ":" then
      match p.2 with
      | .file (some d) => some (p.1, d)
      | _ => none
    else none)

/-- Mirrors `FSDB.scan` (the lazy generator, listed eagerly): validates the
table name via `_target_f`; a glob over a missing directory yields nothing. -/
def scan (fs : FS) (table pattern : String) : Except Err (List (String × Doc)) :=
  if !safeName table then .error .unsafeName
  else
    .ok (match alookup fs table with
      | none => []
      | some tb => scanTable tb pattern)

/-- The backfill loop of `FSDB.create_index`: for each scanned record
holding the field, create its index entry through `_index` — which can
raise mid-loop on an ill-formed stored value, leaving the directory and
the earlier entries in place (the model's error result does not carry
that partial state; the invariant theorems prove the error cannot occur
for stores built by well-formed call sequences). -/
def backfill (field : String) : List (String × Doc) → Table → Except Err Table
  | [], tb => .ok tb
  | pr :: rest, tb =>
    match alookup pr.2 field with
    | some v =>
      match indexSet tb pr.1 field v with
      | .ok tb2 => backfill field rest tb2
      | .error e => .error e
    | none => backfill field rest tb

/-- The effect of a non-raising backfill loop; `backfill` returns `.ok`
of exactly this table whenever it does not raise (`backfill_ok_eq`,
`backfill_wf_ok`). -/
def backfillApply (field : String) (recs : List (String × Doc)) (tb0 : Table) : Table :=
  recs.foldl (fun acc pr =>
    match alookup pr.2 field with
    | some v => indexApply acc pr.1 field v
    | none => acc) tb0

/-- Mirrors `FSDB.create_index`: scan the table (validating its name),
validate `@field`, `mkdir(exist_ok=True)` the index directory (an existing
*file* of that name makes `mkdir` raise `FileExistsError`; a missing table
directory makes it raise `FileNotFoundError`), then backfill an entry for
every scanned record that has the field. -/
def create_index (fs : FS) (table field : String) : Except Err FS :=
  if !safeName table then .error .unsafeName
  else
    let recs : List (String × Doc) :=
      match alookup fs table with
      | none => []
      | some tb => scanTable tb "*"
    if !safeName ("@" ++ field) then .error .unsafeName
    else
      match alookup fs table with
      | none => .error .tableNotFound
      | some tb =>
        match alookup tb ("@" ++ field) with
        | some (.file _) => .error .alreadyExists
        | some (.idx _) =>
          match backfill field recs tb with
          | .ok tb2 => .ok (aset fs table tb2)
          | .error e => .error e
        | none =>
          match backfill field recs (aset tb ("@" ++ field) (.idx [])) with
          | .ok tb2 => .ok (aset fs table tb2)
          | .error e => .error e

/-- Mirrors `FSDB.find`: resolve `@field/value` (note that `value` is
joined into the path *without* `_safe_name` validation), follow the
symbolic link and parse the record; any failure yields `None`. -/
def find (fs : FS) (table field value : String) : Except Err (Option Doc) :=
  if !safeName table then .error .unsafeName
  else if !safeName ("@" ++ field) then .error .unsafeName
  else
    .ok (match alookup fs table with
      | none => none
      | some tb =>
        match alookup tb ("@" ++ field) with
        | some (.idx es) =>
          match alookup es value with
          | some pk =>
            match alookup tb pk with
            | some (.file (some d)) => some d
            | _ => none
          | none => none
        | _ => none)

/-- Mirrors `FSDB.link`: both endpoint paths must exist, then upsert the
compound-keyed record `src_pk:dest_pk` with the payload (or `{}`). -/
def link (fs : FS) (st spk dt dpk : String) (d : Option Doc) : Except Err FS :=
  if !nameOk st spk then .error .unsafeName
  else if !targetExists fs st spk then .error .recordNotFound
  else if !nameOk dt dpk then .error .unsafeName
  else if !targetExists fs dt dpk then .error .recordNotFound
  else upsert fs st (spk ++ ":" ++ dpk) (d.getD [])

/-- Mirrors `FSDB.query_links`: names in the table directory matching the
glob `"<left>:<right>"` (files and directories alike, with no table-name
validation; a missing table yields nothing), filtered to names containing
a colon and split at the first colon. -/
def query_links (fs : FS) (table left right : String) : List (String × String) :=
  match alookup fs table with
  | none => []
  | some tb =>
    ((tb.map Prod.fst).filter (fun n =>
      globMatch (left ++ ":" ++ right) n && strContains n ":")).map splitColon

/-! Observers and specification-side definitions used by the theorems. -/

/-- A primary key or field name under which the flat-path model is faithful
and which respects the reservations the specification itself states: safe
(`_safe_name`), non-empty, and not beginning with the reserved `@`. -/
def wfName (s : String) : Bool :=
  safeName s && (s != "") && (s.data.head? != some '@')

/-- A field value whose string form is a well-formed index entry name:
safe, non-empty, and not the self path `"."` (a safe non-empty string
other than `"."` is automatically a plain segment: `/` and `".."` are
already unsafe). -/
def wfVal (v : String) : Bool :=
  safeName v && (v != "") && (v != ".")

/-- A document whose field values produce well-formed index entry names. -/
def docWfB (d : Doc) : Bool :=
  d.all (fun p => wfVal p.2)

/-- A document whose field values are plain segments (implied by
`docWfB`); exactly what keeps `_index` from raising on its value. -/
def docPlainB (d : Doc) : Bool :=
  d.all (fun p => plainSeg p.2)

/-- The parsed document held by the record file `k` of a table, `none` when
the path is absent, not a plain file, or malformed. -/
def fileDoc (tb : Table) (k : String) : Option Doc :=
  match alookup tb k with
  | some (.file (some d)) => some d
  | _ => none

/-- The primary key an index entry `@field/value` points at, if the entry exists. -/
def idxEntry (fs : FS) (table field value : String) : Option String :=
  match alookup fs table with
  | none => none
  | some tb =>
    match alookup tb ("@" ++ field) with
    | some (.idx es) => alookup es value
    | _ => none

/-- The content of the record file at `root/table/pk` when that path is a
plain file (for the empty key the path is the table directory, not a file). -/
def recordFile (fs : FS) (table pk : String) : Option (Option Doc) :=
  match alookup fs table with
  | none => none
  | some tb =>
    if pk = "" then none
    else
      match alookup tb pk with
      | some (.file c) => some c
      | _ => none

/-- Specification-side reading of the `get` contract (claim C7): the parsed
document when the record file exists and parses, absent otherwise. -/
def specGet (fs : FS) (table pk : String) : Option Doc :=
  match recordFile fs table pk with
  | some (some d) => some d
  | _ => none

/-- The transformation `_update_index` applies to the link entries of one
index directory on field `field`: drop the entry for the old value when it
still points at `pk`, then (re)create the entry for the new value. -/
def newEs (pk : String) (old new : Option Doc) (field : String)
    (es : List (String × String)) : List (String × String) :=
  let es1 :=
    match old with
    | some o =>
      match alookup o field with
      | some ov =>
        match alookup es ov with
        | some k => if k = pk then aerase es ov else es
        | none => es
      | none => es
    | none => es
  match new with
  | some nd =>
    match alookup nd field with
    | some nv => aset es1 nv pk
    | none => es1
  | none => es1

/-- Every index directory of the table has a safe name of the form `@`
followed by a string with no further leading `@` — so `lstrip("@")`
recovers the field, `_index` re-resolves `"@" + field` to the same
directory, and its `_safe_name` check passes.  `create_index` only ever
creates directories with safe names, and a stray multi-`@` directory (as
`create_index(t, "@x")` builds) makes `_index` raise on the next write
of a document holding the field. -/
def GoodTable (tb : Table) : Prop :=
  ∀ n es, alookup tb n = some (.idx es) →
    n = "@" ++ stripAts n ∧ safeName n = true

/-- Executable form of `GoodTable`. -/
def goodTableB (tb : Table) : Bool :=
  tb.all (fun p =>
    match p.2 with
    | .idx _ => (p.1 == "@" ++ stripAts p.1) && safeName p.1
    | .file _ => true)

/-- Index coherence of one table: every index entry `@field/value -> pk`
points at a record that is currently present, parses, and whose field
(the directory name stripped of `@`) has string form `value`. -/
def EntsOK (tb : Table) : Prop :=
  ∀ n es v k, alookup tb n = some (.idx es) → alookup es v = some k →
    ∃ d, alookup tb k = some (.file (some d)) ∧ alookup d (stripAts n) = some v

/-- All parsing record files of the table hold documents whose values are
well-formed index-entry names; true of every store built by well-formed
calls, and what keeps `create_index`'s backfill from raising. -/
def DocsWf (tb : Table) : Prop :=
  ∀ k d, alookup tb k = some (.file (some d)) → docWfB d = true

/-- Structural invariant of one table directory. -/
def TInv (tb : Table) : Prop :=
  keysND tb ∧ GoodTable tb ∧ EntsOK tb ∧ DocsWf tb

/-- Structural invariant of the whole store. -/
def Inv (fs : FS) : Prop :=
  ∀ t tb, alookup fs t = some tb → TInv tb

/-- The index-coherence part of the invariant, as claim C2 speaks of it. -/
def IdxCoherent (fs : FS) : Prop :=
  ∀ t tb, alookup fs t = some tb → EntsOK tb

/-! The engine's operations as a syntax, to quantify over operation
sequences of a single writer. -/

/-- One engine call. -/
inductive Op : Type where
  | create (t : String)
  | insert (t pk : String) (d : Doc)
  | update (t pk : String) (d : Doc)
  | upsert (t pk : String) (d : Doc)
  | delete (t pk : String)
  | drop (t : String)
  | createIndex (t field : String)
  | link (st spk dt dpk : String) (d : Option Doc)
deriving DecidableEq, Repr

/-- The result of one engine call on a store (for the `Bool`-returning
calls, the resulting store). -/
def opResult (fs : FS) : Op → Except Err FS
  | .create t => create fs t
  | .insert t pk d => insert fs t pk d
  | .update t pk d => update fs t pk d
  | .upsert t pk d => upsert fs t pk d
  | .delete t pk => (delete fs t pk).map Prod.fst
  | .drop t => (drop fs t).map Prod.fst
  | .createIndex t f => create_index fs t f
  | .link st spk dt dpk d => link fs st spk dt dpk d

/-- Apply one call; a raised error leaves the on-disk state unchanged.
This is faithful because every error a *well-formed* call can raise is
raised before the first mutation of the store: the one raise site that
follows a mutation (`_index`, reached from `_update_index` and the
backfill of `create_index` after the record write or `mkdir`) is proved
unreachable from stores built by well-formed calls
(`opResult_no_late_error`). -/
def applyOp (fs : FS) (op : Op) : FS :=
  match opResult fs op with
  | .ok f => f
  | .error _ => fs

/-- Run a sequence of calls by a single writer. -/
def runOps (fs : FS) (ops : List Op) : FS :=
  ops.foldl applyOp fs

/-- Well-formed call: table names avoid the root aliases `""` and `"."`
(which `pathlib` collapses onto the root directory itself, outside the
flat model — every *unsafe* table name is rejected by the call's own
validation before any mutation and needs no side condition here); keys
and index fields observe the reservations of the specification (safe,
non-empty, no leading `@`); documents carry values whose string forms
are well-formed entry names; `drop`'s unvalidated table name is a plain
segment. -/
def opWf : Op → Bool
  | .create t => (t != "") && (t != ".")
  | .insert t pk d => (t != "") && (t != ".") && wfName pk && docWfB d
  | .update t pk d => (t != "") && (t != ".") && wfName pk && docWfB d
  | .upsert t pk d => (t != "") && (t != ".") && wfName pk && docWfB d
  | .delete _ _ => true
  | .drop t => plainSeg t
  | .createIndex t field => (t != "") && (t != ".") && wfName field
  | .link st spk dt dpk d =>
    (st != "") && (st != ".") && (dt != "") && (dt != ".") &&
    wfName spk && wfName dpk && wfName (spk ++ ":" ++ dpk) && docWfB (d.getD [])

/-- Well-formed call sequence. -/
def opsWf (ops : List Op) : Bool :=
  ops.all opWf

/-- The single-writer scenario refuting the index-existence biconditional
of claim C2: two records share the field value, then the one the entry
points at is deleted. -/
def c2ops : List Op :=
  [.create "t", .createIndex "t" "f",
   .insert "t" "r1" [("f", "x")], .insert "t" "r2" [("f", "x")],
   .delete "t" "r2"]

/-- The link scenario of claim C8. -/
def c8ops : List Op :=
  [.create "people", .insert "people" "a" [], .insert "people" "b" [],
   .link "people" "a" "people" "b" none]

/-- A store whose table holds an index directory on the field `"a:b"`,
refuting the claim that `query_links` enumerates only record filenames. -/
def c8fsX : FS :=
  runOps [] [.create "t", .createIndex "t" "a:b"]

/-- A store with one empty table. -/
def cSt0 : FS := runOps [] [.create "t"]

/-- A store with one table holding one record. -/
def cSt1 : FS := runOps [] [.create "t", .insert "t" "k" [("a", "b")]]

/-- The intermediate state of the C2 scenario: the `@f/x` entry points at
`r2` while `r1` holds the same field value. -/
def c2mid : FS :=
  runOps [] [.create "t", .createIndex "t" "f",
    .insert "t" "r1" [("f", "x")], .insert "t" "r2" [("f", "x")]]

/-- The table of `c2mid`, spelled out. -/
def c2tb : Table :=
  [("@f", .idx [("x", "r2")]),
   ("r1", .file (some [("f", "x")])),
   ("r2", .file (some [("f", "x")]))]

/-- A hand-built store holding a malformed record file next to a good one. -/
def c7fs : FS :=
  [("t", [("bad", .file none), ("good", .file (some [("a", "b")]))])]

/-- A store holding a record with the empty document `{}` — falsy to the
`if not current:` tests of `delete` and `update`. -/
def c3fs : FS := runOps [] [.create "t", .insert "t" "r" []]

/-- The same empty-document store, for the `update` counterexample. -/
def c4fs : FS := runOps [] [.create "t", .insert "t" "r" []]

/-- A store whose table holds the stray index directory `@@x`, as
`create_index("t", "@x")` builds it: `_update_index` then computes the
field `"x"` by `lstrip("@")` but `_index` re-resolves `"@x"`, which does
not exist, so the next write of a document holding `"x"` raises after the
record file is written. -/
def c5fs : FS := runOps [] [.create "t", .createIndex "t" "@x"]

/-- The same stray-directory scenario on another table, for the
round-trip counterexample. -/
def c6fs : FS := runOps [] [.create "u", .createIndex "u" "@x"]

/-! Association-list lemmas. -/

theorem alookup_aset_self {α : Type} (l : List (String × α)) (k : String) (v : α) :
    alookup (aset l k v) k = some v := by
  induction l with
  | nil => simp [aset, alookup]
  | cons p t ih =>
    obtain ⟨k1, v1⟩ := p
    by_cases h : k1 = k
    · simp [aset, h, alookup]
    · simp [aset, h, alookup, ih]

theorem alookup_aset_ne {α : Type} (l : List (String × α)) {k k2 : String} (v : α)
    (h : k2 ≠ k) : alookup (aset l k v) k2 = alookup l k2 := by
  induction l with
  | nil => simp [aset, alookup, h.symm]
  | cons p t ih =>
    obtain ⟨k1, v1⟩ := p
    by_cases h1 : k1 = k
    · simp [aset, h1, alookup, h.symm, Ne.symm h]
    · simp [aset, h1, alookup, ih]

theorem alookup_aerase {α : Type} (l : List (String × α)) (k k2 : String) :
    alookup (aerase l k) k2 = if k2 = k then none else alookup l k2 := by
  induction l with
  | nil => simp [aerase, alookup]
  | cons p t ih =>
    obtain ⟨k1, v1⟩ := p
    simp only [aerase] at ih ⊢
    by_cases h1 : k1 = k
    · rw [List.filter_cons_of_neg (by simpa using h1)]
      rw [ih]
      by_cases h2 : k2 = k
      · simp [h2]
      · have h3 : ¬ (k1 = k2) := by
          rw [h1]
          exact fun he => h2 he.symm
        simp [h2, alookup, h3]
    · rw [List.filter_cons_of_pos (by simpa using h1)]
      by_cases h2 : k1 = k2
      · subst h2
        have h3 : ¬ (k1 = k) := h1
        simp [alookup, h3]
      · simp [alookup, h2, ih]

theorem aset_cons_pos {α : Type} {k1 k : String} (v1 v : α) (t : List (String × α))
    (h : k1 = k) : aset ((k1, v1) :: t) k v = (k, v) :: t := by
  simp [aset, h]

theorem aset_cons_neg {α : Type} {k1 k : String} (v1 v : α) (t : List (String × α))
    (h : ¬ k1 = k) : aset ((k1, v1) :: t) k v = (k1, v1) :: aset t k v := by
  simp [aset, h]

theorem alookup_mem {α : Type} {l : List (String × α)} {k : String} {v : α}
    (h : alookup l k = some v) : (k, v) ∈ l := by
  induction l with
  | nil => simp [alookup] at h
  | cons p t ih =>
    obtain ⟨k1, v1⟩ := p
    by_cases h1 : k1 = k
    · subst h1
      have hv : v1 = v := by simpa [alookup] using h
      subst hv
      exact List.mem_cons_self _ _
    · simp only [alookup, if_neg h1] at h
      exact List.mem_cons_of_mem _ (ih h)

theorem alookup_of_mem_nd {α : Type} {l : List (String × α)} (hnd : keysND l)
    {k : String} {v : α} (h : (k, v) ∈ l) : alookup l k = some v := by
  induction l with
  | nil => simp at h
  | cons p t ih =>
    obtain ⟨k1, v1⟩ := p
    simp only [keysND, List.map_cons, List.nodup_cons] at hnd
    rcases List.mem_cons.mp h with he | hm
    · have hk : k = k1 := congrArg Prod.fst he
      have hv : v = v1 := congrArg Prod.snd he
      subst hk
      subst hv
      simp [alookup]
    · by_cases h1 : k1 = k
      · exfalso
        apply hnd.1
        rw [h1]
        exact List.mem_map.mpr ⟨(k, v), hm, rfl⟩
      · simp only [alookup, if_neg h1]
        exact ih hnd.2 hm

theorem mem_keys_aset {α : Type} (l : List (String × α)) (k : String) (v : α)
    {m : String} (h : m ∈ (aset l k v).map Prod.fst) :
    m ∈ l.map Prod.fst ∨ m = k := by
  induction l with
  | nil =>
    simp [aset] at h
    exact Or.inr h
  | cons p t ih =>
    obtain ⟨k1, v1⟩ := p
    by_cases h1 : k1 = k
    · rw [aset_cons_pos v1 v t h1] at h
      simp only [List.map_cons, List.mem_cons] at h
      rcases h with h | h
      · exact Or.inr h
      · exact Or.inl (List.mem_cons_of_mem _ h)
    · rw [aset_cons_neg v1 v t h1] at h
      simp only [List.map_cons, List.mem_cons] at h
      rcases h with h | h
      · exact Or.inl (List.mem_cons.mpr (Or.inl h))
      · rcases ih h with h2 | h2
        · exact Or.inl (List.mem_cons_of_mem _ h2)
        · exact Or.inr h2

theorem keysND_aset {α : Type} {l : List (String × α)} (h : keysND l)
    (k : String) (v : α) : keysND (aset l k v) := by
  induction l with
  | nil => simp [aset, keysND]
  | cons p t ih =>
    obtain ⟨k1, v1⟩ := p
    simp only [keysND, List.map_cons, List.nodup_cons] at h
    by_cases hk : k1 = k
    · rw [aset_cons_pos v1 v t hk]
      simp only [keysND, List.map_cons, List.nodup_cons]
      subst hk
      exact h
    · have ht := ih h.2
      rw [aset_cons_neg v1 v t hk]
      simp only [keysND, List.map_cons, List.nodup_cons]
      refine ⟨?_, ht⟩
      intro hc
      rcases mem_keys_aset t k v hc with hc2 | hc2
      · exact h.1 hc2
      · exact hk hc2

theorem keysND_aerase {α : Type} {l : List (String × α)} (h : keysND l)
    (k : String) : keysND (aerase l k) := by
  have hs : ((aerase l k).map Prod.fst).Sublist (l.map Prod.fst) :=
    List.Sublist.map Prod.fst (List.filter_sublist l)
  exact List.Nodup.sublist hs h

/-! Glob and string lemmas. -/

theorem globStar (l : List Char) : globChars ['*'] l = true := by
  induction l with
  | nil => simp [globChars, globTry]
  | cons c t ih =>
    simp only [globChars, globTry] at ih ⊢
    simp [ih]

theorem globAtChars (l : List Char) :
    globChars ['@', '*'] l = match l with | [] => false | c :: _ => c == '@' := by
  cases l with
  | nil => simp [globChars]
  | cons c t =>
    show ('@' == c && globChars ['*'] t) = (c == '@')
    rw [globStar t, Bool.and_true]
    by_cases hc : c = '@'
    · subst hc
      rfl
    · have h1 : ('@' == c) = false := beq_eq_false_iff_ne.mpr
        (fun he => hc he.symm)
      have h2 : (c == '@') = false := beq_eq_false_iff_ne.mpr hc
      rw [h1, h2]

theorem atData : ("@" : String).data = ['@'] := rfl

theorem globAt_append (f : String) : globMatch "@*" ("@" ++ f) = true := by
  have : ("@*" : String).data = ['@', '*'] := rfl
  simp [globMatch, this, String.data_append, atData, globAtChars]

theorem globAt_of_head {n : String} (h : n.data.head? ≠ some '@') :
    globMatch "@*" n = false := by
  have h2 : ("@*" : String).data = ['@', '*'] := rfl
  simp only [globMatch, h2, globAtChars]
  cases hd : n.data with
  | nil => rfl
  | cons c t =>
    have : c ≠ '@' := by
      intro he
      exact h (by simp [hd, he])
    simpa using this

theorem head_dropAts (l : List Char) :
    ((l.dropWhile (fun c => c == '@')).head?) ≠ some '@' := by
  induction l with
  | nil => simp
  | cons c t ih =>
    by_cases h : c = '@'
    · simpa [List.dropWhile_cons, h] using ih
    · simp [List.dropWhile_cons, h]

theorem stripAts_head (s : String) : (stripAts s).data.head? ≠ some '@' := by
  simpa [stripAts] using head_dropAts s.data

theorem stripAts_append {f : String} (h : f.data.head? ≠ some '@') :
    stripAts ("@" ++ f) = f := by
  apply String.ext
  simp only [stripAts, String.data_append, atData, List.singleton_append]
  rw [List.dropWhile_cons]
  simp only [beq_self_eq_true, if_true]
  cases hd : f.data with
  | nil => simp
  | cons c t =>
    have : c ≠ '@' := by
      intro he
      exact h (by simp [hd, he])
    simp [List.dropWhile_cons, this]

theorem goodName_data {n : String} (h : n = "@" ++ stripAts n) :
    n.data = '@' :: (stripAts n).data := by
  conv_lhs => rw [h]
  simp [String.data_append, atData]

theorem globAt_of_goodName {n : String} (h : n = "@" ++ stripAts n) :
    globMatch "@*" n = true := by
  rw [h]
  exact globAt_append _

/-! Components of `wfName`. -/

theorem wfName_safe {s : String} (h : wfName s = true) : safeName s = true := by
  simp [wfName, Bool.and_eq_true] at h
  exact h.1.1

theorem wfName_ne_empty {s : String} (h : wfName s = true) : s ≠ "" := by
  simp [wfName, Bool.and_eq_true] at h
  exact h.1.2

theorem wfName_head {s : String} (h : wfName s = true) :
    s.data.head? ≠ some '@' := by
  simp [wfName, Bool.and_eq_true, bne_iff_ne] at h
  exact h.2

theorem wfName_not_at {s : String} (h : wfName s = true) (f : String) :
    s ≠ "@" ++ f := by
  intro he
  apply wfName_head h
  rw [he]
  simp [String.data_append, atData]

theorem goodTableB_spec {tb : Table} (h : goodTableB tb = true) : GoodTable tb := by
  intro n es hn
  have hm := alookup_mem hn
  have := List.all_eq_true.mp h _ hm
  simpa using this

/-! Characterization of one `_update_index` loop iteration. -/

theorem stepApply_eq_of_none (pk : String) (old new : Option Doc) (tb : Table)
    (dn : String) (h : alookup tb dn = none) : stepApply pk old new tb dn = tb := by
  unfold stepApply
  rw [h]

theorem stepApply_eq_of_file (pk : String) (old new : Option Doc) (tb : Table)
    (dn : String) (c : Option Doc) (h : alookup tb dn = some (.file c)) :
    stepApply pk old new tb dn = tb := by
  unfold stepApply
  rw [h]

theorem stepApply_self (pk : String) (old new : Option Doc) (tb : Table) (dn : String)
    (es : List (String × String))
    (hdn : alookup tb dn = some (.idx es)) (hg : dn = "@" ++ stripAts dn) :
    alookup (stepApply pk old new tb dn) dn =
      some (.idx (newEs pk old new (stripAts dn) es)) := by
  have hg2 : "@" ++ stripAts dn = dn := hg.symm
  simp only [stepApply, newEs, indexApply, hdn, hg2]
  rcases old with _ | o
  · rcases new with _ | nd
    · simp [hdn]
    · rcases hnd : alookup nd (stripAts dn) with _ | nv <;>
        simp [hnd, hdn, alookup_aset_self]
  · rcases ho : alookup o (stripAts dn) with _ | ov
    · rcases new with _ | nd
      · simp [ho, hdn]
      · rcases hnd : alookup nd (stripAts dn) with _ | nv <;>
          simp [ho, hnd, hdn, alookup_aset_self]
    · rcases hov : alookup es ov with _ | k0
      · rcases new with _ | nd
        · simp [ho, hov, hdn]
        · rcases hnd : alookup nd (stripAts dn) with _ | nv <;>
            simp [ho, hov, hnd, hdn, alookup_aset_self]
      · by_cases hk : k0 = pk
        · rcases new with _ | nd
          · simp [ho, hov, hk, alookup_aset_self]
          · rcases hnd : alookup nd (stripAts dn) with _ | nv <;>
              simp [ho, hov, hk, hnd, alookup_aset_self]
        · rcases new with _ | nd
          · simp [ho, hov, hk, hdn]
          · rcases hnd : alookup nd (stripAts dn) with _ | nv <;>
              simp [ho, hov, hk, hnd, hdn, alookup_aset_self]

theorem stepApply_other (pk : String) (old new : Option Doc) (tb : Table)
    (dn k : String) (hk : k ≠ dn)
    (hgood : ∀ es, alookup tb dn = some (.idx es) → dn = "@" ++ stripAts dn) :
    alookup (stepApply pk old new tb dn) k = alookup tb k := by
  cases hdn : alookup tb dn with
  | none => rw [stepApply_eq_of_none pk old new tb dn hdn]
  | some e =>
    cases e with
    | file c => rw [stepApply_eq_of_file pk old new tb dn c hdn]
    | idx es =>
      have hg2 : "@" ++ stripAts dn = dn := (hgood es hdn).symm
      simp only [stepApply, indexApply, hdn, hg2]
      rcases old with _ | o
      · rcases new with _ | nd
        · rfl
        · rcases hnd : alookup nd (stripAts dn) with _ | nv <;>
            simp [hnd, hdn, alookup_aset_self, alookup_aset_ne _ _ hk]
      · rcases ho : alookup o (stripAts dn) with _ | ov
        · rcases new with _ | nd
          · simp [ho]
          · rcases hnd : alookup nd (stripAts dn) with _ | nv <;>
              simp [ho, hnd, hdn, alookup_aset_self, alookup_aset_ne _ _ hk]
        · rcases hov : alookup es ov with _ | k0
          · rcases new with _ | nd
            · simp [ho, hov]
            · rcases hnd : alookup nd (stripAts dn) with _ | nv <;>
                simp [ho, hov, hnd, hdn, alookup_aset_self, alookup_aset_ne _ _ hk]
          · by_cases hk0 : k0 = pk
            · rcases new with _ | nd
              · simp [ho, hov, hk0, alookup_aset_ne _ _ hk]
              · rcases hnd : alookup nd (stripAts dn) with _ | nv <;>
                  simp [ho, hov, hk0, hnd, alookup_aset_self, alookup_aset_ne _ _ hk]
            · rcases new with _ | nd
              · simp [ho, hov, hk0]
              · rcases hnd : alookup nd (stripAts dn) with _ | nv <;>
                  simp [ho, hov, hk0, hnd, hdn, alookup_aset_self, alookup_aset_ne _ _ hk]

theorem stepApply_char (pk : String) (old new : Option Doc) (tb : Table) (dn : String)
    (hG : GoodTable tb) (k : String) :
    alookup (stepApply pk old new tb dn) k =
      match alookup tb k with
      | some (.idx es) =>
        some (.idx (if k = dn then newEs pk old new (stripAts k) es else es))
      | o => o := by
  by_cases hk : k = dn
  · subst hk
    cases hdn : alookup tb k with
    | none => rw [stepApply_eq_of_none pk old new tb k hdn, hdn]
    | some e =>
      cases e with
      | file c => rw [stepApply_eq_of_file pk old new tb k c hdn, hdn]
      | idx es =>
        rw [stepApply_self pk old new tb k es hdn (hG k es hdn).1]
        simp
  · rw [stepApply_other pk old new tb dn k hk (fun es h => (hG dn es h).1)]
    cases h2 : alookup tb k with
    | none => rfl
    | some e =>
      cases e with
      | file c => rfl
      | idx es => simp [hk]

theorem goodTable_stepApply (pk : String) (old new : Option Doc) (tb : Table)
    (dn : String) (hG : GoodTable tb) : GoodTable (stepApply pk old new tb dn) := by
  intro n es h
  rw [stepApply_char pk old new tb dn hG n] at h
  cases h2 : alookup tb n with
  | none => rw [h2] at h; exact absurd h (by simp)
  | some e =>
    cases e with
    | file c => rw [h2] at h; exact absurd h (by simp)
    | idx es0 => exact hG n es0 h2

theorem keysND_indexApply (tb : Table) (pk field v : String) (h : keysND tb) :
    keysND (indexApply tb pk field v) := by
  unfold indexApply
  cases h3 : alookup tb ("@" ++ field) with
  | none => exact h
  | some e =>
    cases e with
    | file c => exact h
    | idx es => exact keysND_aset h _ _

theorem keysND_stepApply (pk : String) (old new : Option Doc) (tb : Table)
    (dn : String) (h : keysND tb) : keysND (stepApply pk old new tb dn) := by
  cases h1 : alookup tb dn with
  | none =>
    rw [stepApply_eq_of_none pk old new tb dn h1]
    exact h
  | some e =>
    cases e with
    | file c =>
      rw [stepApply_eq_of_file pk old new tb dn c h1]
      exact h
    | idx es =>
      simp only [stepApply, h1]
      rcases old with _ | o
      · rcases new with _ | nd
        · exact h
        · rcases hnd : alookup nd (stripAts dn) with _ | nv
          · simp only [hnd]
            exact h
          · simp only [hnd]
            exact keysND_indexApply _ _ _ _ h
      · rcases ho : alookup o (stripAts dn) with _ | ov
        · rcases new with _ | nd
          · simp only [ho]
            exact h
          · rcases hnd : alookup nd (stripAts dn) with _ | nv
            · simp only [ho, hnd]
              exact h
            · simp only [ho, hnd]
              exact keysND_indexApply _ _ _ _ h
        · rcases hov : alookup es ov with _ | k0
          · rcases new with _ | nd
            · simp only [ho, hov]
              exact h
            · rcases hnd : alookup nd (stripAts dn) with _ | nv
              · simp only [ho, hov, hnd]
                exact h
              · simp only [ho, hov, hnd]
                exact keysND_indexApply _ _ _ _ h
          · by_cases hk0 : k0 = pk
            · rcases new with _ | nd
              · simp only [ho, hov, hk0, if_pos trivial, eq_self_iff_true, if_true]
                exact keysND_aset h _ _
              · rcases hnd : alookup nd (stripAts dn) with _ | nv
                · simp only [ho, hov, hk0, eq_self_iff_true, if_true, hnd]
                  exact keysND_aset h _ _
                · simp only [ho, hov, hk0, eq_self_iff_true, if_true, hnd]
                  exact keysND_indexApply _ _ _ _ (keysND_aset h _ _)
            · rcases new with _ | nd
              · simp only [ho, hov, if_neg hk0]
                exact h
              · rcases hnd : alookup nd (stripAts dn) with _ | nv
                · simp only [ho, hov, if_neg hk0, hnd]
                  exact h
                · simp only [ho, hov, if_neg hk0, hnd]
                  exact keysND_indexApply _ _ _ _ h

theorem foldl_stepApply_char (pk : String) (old new : Option Doc) :
    ∀ (L : List String) (tb : Table), L.Nodup → GoodTable tb →
    ∀ k, alookup (L.foldl (stepApply pk old new) tb) k =
      match alookup tb k with
      | some (.idx es) =>
        some (.idx (if k ∈ L then newEs pk old new (stripAts k) es else es))
      | o => o := by
  intro L
  induction L with
  | nil =>
    intro tb _ _ k
    simp only [List.foldl_nil]
    cases alookup tb k with
    | none => rfl
    | some e =>
      cases e with
      | file c => rfl
      | idx es => simp
  | cons n L2 ih =>
    intro tb hnd hG k
    simp only [List.foldl_cons]
    have hG1 : GoodTable (stepApply pk old new tb n) :=
      goodTable_stepApply pk old new tb n hG
    rw [ih (stepApply pk old new tb n) (List.nodup_cons.mp hnd).2 hG1 k]
    rw [stepApply_char pk old new tb n hG k]
    cases h2 : alookup tb k with
    | none => rfl
    | some e =>
      cases e with
      | file c => rfl
      | idx es =>
        by_cases hk : k = n
        · subst hk
          have hnotin : k ∉ L2 := (List.nodup_cons.mp hnd).1
          simp [hnotin]
        · simp [hk, List.mem_cons]

theorem keysND_foldl_stepApply (pk : String) (old new : Option Doc) (L : List String) :
    ∀ tb : Table, keysND tb → keysND (L.foldl (stepApply pk old new) tb) := by
  induction L with
  | nil => intro tb h; exact h
  | cons n L2 ih =>
    intro tb h
    exact ih _ (keysND_stepApply pk old new tb n h)

theorem mem_globDirs {tb : Table} {n : String} {es : List (String × String)}
    (h : alookup tb n = some (.idx es)) (hg : n = "@" ++ stripAts n) :
    n ∈ globDirs tb := by
  have hm := alookup_mem h
  have hmatch : globMatch "@*" n = true := globAt_of_goodName hg
  exact List.mem_map.mpr
    ⟨(n, .idx es), List.mem_filter.mpr ⟨hm, by simpa using hmatch⟩, rfl⟩

theorem globDirs_nodup {tb : Table} (h : keysND tb) : (globDirs tb).Nodup := by
  have hs : (globDirs tb).Sublist (tb.map Prod.fst) :=
    List.Sublist.map Prod.fst (List.filter_sublist tb)
  exact List.Nodup.sublist hs h

/-! Correctness of the per-directory synchronization transformation. -/

theorem fileDoc_eq_some {tb : Table} {k : String} {d : Doc}
    (h : fileDoc tb k = some d) : alookup tb k = some (.file (some d)) := by
  unfold fileDoc at h
  cases h5 : alookup tb k with
  | none =>
    rw [h5] at h
    exact Option.noConfusion h
  | some e2 =>
    cases e2 with
    | file c2 =>
      cases c2 with
      | none =>
        rw [h5] at h
        simp at h
      | some d2 =>
        rw [h5] at h
        simp at h
        rw [h]
    | idx es3 =>
      rw [h5] at h
      simp at h

theorem fileDoc_of {tb : Table} {k : String} {d : Doc}
    (h : alookup tb k = some (.file (some d))) : fileDoc tb k = some d := by
  unfold fileDoc
  rw [h]

theorem newEs_done_aux (pk field : String) (new : Option Doc)
    (es1 : List (String × String)) (R : String → Option Doc)
    (hgood : ∀ v k, alookup es1 v = some k →
      k ≠ pk ∧ ∃ d, R k = some d ∧ alookup d field = some v)
    (hR : R pk = new) :
    ∀ v k,
      alookup (match new with
        | some nd =>
          match alookup nd field with
          | some nv => aset es1 nv pk
          | none => es1
        | none => es1) v = some k →
      ∃ d, R k = some d ∧ alookup d field = some v := by
  intro v k h
  rcases new with _ | nd
  · exact (hgood v k h).2
  · have h2 : alookup (match alookup nd field with
        | some nv => aset es1 nv pk
        | none => es1) v = some k := h
    rcases hnd : alookup nd field with _ | nv
    · rw [hnd] at h2
      exact (hgood v k h2).2
    · rw [hnd] at h2
      by_cases hv : v = nv
      · subst hv
        rw [alookup_aset_self] at h2
        injection h2 with he
        subst he
        exact ⟨nd, hR, hnd⟩
      · rw [alookup_aset_ne _ _ hv] at h2
        exact (hgood v k h2).2

theorem newEs_done (pk field : String) (old new : Option Doc)
    (es : List (String × String)) (R : String → Option Doc)
    (hpend : ∀ v k, alookup es v = some k →
      (k ≠ pk → ∃ d, R k = some d ∧ alookup d field = some v) ∧
      (k = pk → ∃ o, old = some o ∧ alookup o field = some v))
    (hR : R pk = new) :
    ∀ v k, alookup (newEs pk old new field es) v = some k →
      ∃ d, R k = some d ∧ alookup d field = some v := by
  intro v k h
  rcases old with _ | o
  · simp only [newEs] at h
    refine newEs_done_aux pk field new es R ?_ hR v k h
    intro v2 k2 h3
    have hne : k2 ≠ pk := by
      intro he
      rcases (hpend v2 k2 h3).2 he with ⟨o, ho, _⟩
      exact Option.noConfusion ho
    exact ⟨hne, (hpend v2 k2 h3).1 hne⟩
  · rcases ho : alookup o field with _ | ov
    · simp only [newEs, ho] at h
      refine newEs_done_aux pk field new es R ?_ hR v k h
      intro v2 k2 h3
      have hne : k2 ≠ pk := by
        intro he
        rcases (hpend v2 k2 h3).2 he with ⟨o2, ho2, hof⟩
        have he2 : o = o2 := by injection ho2
        rw [← he2, ho] at hof
        exact Option.noConfusion hof
      exact ⟨hne, (hpend v2 k2 h3).1 hne⟩
    · rcases hov : alookup es ov with _ | k0
      · simp only [newEs, ho, hov] at h
        refine newEs_done_aux pk field new es R ?_ hR v k h
        intro v2 k2 h3
        have hne : k2 ≠ pk := by
          intro he
          rcases (hpend v2 k2 h3).2 he with ⟨o2, ho2, hof⟩
          have he2 : o = o2 := by injection ho2
          rw [← he2, ho] at hof
          have hvv : ov = v2 := by injection hof
          rw [← hvv, hov] at h3
          exact Option.noConfusion h3
        exact ⟨hne, (hpend v2 k2 h3).1 hne⟩
      · by_cases hk0 : k0 = pk
        · simp only [newEs, ho, hov, if_pos hk0] at h
          refine newEs_done_aux pk field new (aerase es ov) R ?_ hR v k h
          intro v2 k2 h3
          rw [alookup_aerase] at h3
          by_cases hvo : v2 = ov
          · rw [if_pos hvo] at h3
            exact Option.noConfusion h3
          · rw [if_neg hvo] at h3
            have hne : k2 ≠ pk := by
              intro he
              rcases (hpend v2 k2 h3).2 he with ⟨o2, ho2, hof⟩
              have he2 : o = o2 := by injection ho2
              rw [← he2, ho] at hof
              have hvv : ov = v2 := by injection hof
              exact hvo hvv.symm
            exact ⟨hne, (hpend v2 k2 h3).1 hne⟩
        · simp only [newEs, ho, hov, if_neg hk0] at h
          refine newEs_done_aux pk field new es R ?_ hR v k h
          intro v2 k2 h3
          have hne : k2 ≠ pk := by
            intro he
            rcases (hpend v2 k2 h3).2 he with ⟨o2, ho2, hof⟩
            have he2 : o = o2 := by injection ho2
            rw [← he2, ho] at hof
            have hvv : ov = v2 := by injection hof
            rw [← hvv, hov] at h3
            have h4 : k0 = k2 := by injection h3
            exact hk0 (h4.trans he)
          exact ⟨hne, (hpend v2 k2 h3).1 hne⟩

theorem syncCore (tb : Table) (pk : String) (old new : Option Doc)
    (hND : keysND tb) (hG : GoodTable tb) (hD : DocsWf tb)
    (hpend : ∀ n es v k, alookup tb n = some (.idx es) → alookup es v = some k →
      (k ≠ pk → ∃ d, fileDoc tb k = some d ∧ alookup d (stripAts n) = some v) ∧
      (k = pk → ∃ o, old = some o ∧ alookup o (stripAts n) = some v))
    (hpk : fileDoc tb pk = new) :
    TInv ((globDirs tb).foldl (stepApply pk old new) tb) := by
  have hchar := foldl_stepApply_char pk old new (globDirs tb) tb (globDirs_nodup hND) hG
  refine ⟨keysND_foldl_stepApply pk old new _ tb hND, ?_, ?_, ?_⟩
  · intro n es h
    rw [hchar n] at h
    cases h2 : alookup tb n with
    | none =>
      rw [h2] at h
      exact absurd h (by simp)
    | some e =>
      cases e with
      | file c =>
        rw [h2] at h
        exact absurd h (by simp)
      | idx es0 => exact hG n es0 h2
  · intro n es2 v k h hv
    rw [hchar n] at h
    cases h2 : alookup tb n with
    | none =>
      rw [h2] at h
      exact absurd h (by simp)
    | some e =>
      cases e with
      | file c =>
        rw [h2] at h
        exact absurd h (by simp)
      | idx es0 =>
        rw [h2] at h
        have hgn : n = "@" ++ stripAts n := (hG n es0 h2).1
        have hmem : n ∈ globDirs tb := mem_globDirs h2 hgn
        have h3 : some (Entry.idx (if n ∈ globDirs tb then
            newEs pk old new (stripAts n) es0 else es0)) = some (Entry.idx es2) := h
        rw [if_pos hmem] at h3
        have hes2 : es2 = newEs pk old new (stripAts n) es0 := by
          injection h3 with h4
          injection h4 with h5
          exact h5.symm
        rw [hes2] at hv
        have hdone := newEs_done pk (stripAts n) old new es0 (fileDoc tb)
          (fun v2 k2 h2e => hpend n es0 v2 k2 h2 h2e) hpk v k hv
        rcases hdone with ⟨d, hd, hdf⟩
        refine ⟨d, ?_, hdf⟩
        rw [hchar k, fileDoc_eq_some hd]
  · intro k d hk
    rw [hchar k] at hk
    cases h2 : alookup tb k with
    | none =>
      rw [h2] at hk
      exact absurd hk (by simp)
    | some e =>
      cases e with
      | file c =>
        rw [h2] at hk
        have hc : c = some d := by injection hk with h3; injection h3
        rw [hc] at h2
        exact hD k d h2
      | idx es0 =>
        rw [h2] at hk
        exact absurd hk (by simp)

/-! Invariant preservation, operation by operation. -/

theorem nameOk_safe {t pk : String} (h : nameOk t pk = true) : safeName t = true := by
  simp [nameOk, Bool.and_eq_true] at h
  exact h.1

theorem Inv_aset {fs : FS} (hInv : Inv fs) {t : String} {tb : Table}
    (h : TInv tb) : Inv (aset fs t tb) := by
  intro t2 tb2 h2
  by_cases he : t2 = t
  · subst he
    rw [alookup_aset_self] at h2
    injection h2 with h3
    rw [← h3]
    exact h
  · rw [alookup_aset_ne _ _ he] at h2
    exact hInv t2 tb2 h2

theorem Inv_aset_aset {fs : FS} (hInv : Inv fs) {t : String} (tb1 : Table)
    {tb : Table} (h : TInv tb) : Inv (aset (aset fs t tb1) t tb) := by
  intro t2 tb2 h2
  by_cases he : t2 = t
  · subst he
    rw [alookup_aset_self] at h2
    injection h2 with h3
    rw [← h3]
    exact h
  · rw [alookup_aset_ne _ _ he, alookup_aset_ne _ _ he] at h2
    exact hInv t2 tb2 h2

theorem writeCore_inv (fs : FS) (t : String) (tb : Table) (pk : String)
    (old : Option Doc) (d : Doc)
    (hInv : Inv fs) (hft : alookup fs t = some tb)
    (hold : ∀ d0, alookup tb pk = some (.file (some d0)) → old = some d0)
    (hdw : docWfB d = true) :
    Inv (syncApply (aset fs t (aset tb pk (.file (some d)))) t pk old (some d)) := by
  obtain ⟨hND, hG, hE, hD⟩ := hInv t tb hft
  have hpkP : alookup (aset tb pk (.file (some d))) pk = some (.file (some d)) :=
    alookup_aset_self tb pk _
  have hother : ∀ n, n ≠ pk →
      alookup (aset tb pk (.file (some d))) n = alookup tb n :=
    fun n hn => alookup_aset_ne tb _ hn
  unfold syncApply
  rw [alookup_aset_self fs t _]
  apply Inv_aset_aset hInv
  apply syncCore
  · exact keysND_aset hND pk _
  · intro n es hn
    by_cases hnp : n = pk
    · subst hnp
      rw [hpkP] at hn
      exact absurd hn (by simp)
    · rw [hother n hnp] at hn
      exact hG n es hn
  · intro k d2 hk
    by_cases hkp : k = pk
    · subst hkp
      rw [hpkP] at hk
      have hd2 : d = d2 := by
        simpa using hk
      rw [← hd2]
      exact hdw
    · rw [hother k hkp] at hk
      exact hD k d2 hk
  · intro n es v k hn hv
    have hnp : n ≠ pk := by
      intro he
      rw [he, hpkP] at hn
      exact absurd hn (by simp)
    rw [hother n hnp] at hn
    obtain ⟨d0, hk0, hf0⟩ := hE n es v k hn hv
    constructor
    · intro hkp
      refine ⟨d0, ?_, hf0⟩
      unfold fileDoc
      rw [hother k hkp, hk0]
    · intro hkp
      subst hkp
      exact ⟨d0, hold d0 hk0, hf0⟩
  · unfold fileDoc
    rw [hpkP]

theorem eraseCore_inv (fs : FS) (t : String) (tb : Table) (pk : String) (c : Doc)
    (hInv : Inv fs) (hft : alookup fs t = some tb)
    (hpk : alookup tb pk = some (.file (some c))) :
    Inv (syncApply (aset fs t (aerase tb pk)) t pk (some c) none) := by
  obtain ⟨hND, hG, hE, hD⟩ := hInv t tb hft
  unfold syncApply
  rw [alookup_aset_self fs t _]
  apply Inv_aset_aset hInv
  apply syncCore
  · exact keysND_aerase hND pk
  · intro n es hn
    rw [alookup_aerase] at hn
    by_cases hnp : n = pk
    · rw [if_pos hnp] at hn
      exact absurd hn (by simp)
    · rw [if_neg hnp] at hn
      exact hG n es hn
  · intro k d2 hk
    rw [alookup_aerase] at hk
    by_cases hkp : k = pk
    · rw [if_pos hkp] at hk
      exact absurd hk (by simp)
    · rw [if_neg hkp] at hk
      exact hD k d2 hk
  · intro n es v k hn hv
    rw [alookup_aerase] at hn
    by_cases hnp : n = pk
    · rw [if_pos hnp] at hn
      exact absurd hn (by simp)
    · rw [if_neg hnp] at hn
      obtain ⟨d0, hk0, hf0⟩ := hE n es v k hn hv
      constructor
      · intro hkp
        refine ⟨d0, ?_, hf0⟩
        unfold fileDoc
        rw [alookup_aerase, if_neg hkp, hk0]
      · intro hkp
        subst hkp
        rw [hpk] at hk0
        have hc : c = d0 := by
          injection hk0 with h2
          injection h2 with h3
          injection h3 with h4
        exact ⟨d0, by rw [hc], hf0⟩
  · unfold fileDoc
    rw [alookup_aerase, if_pos rfl]

/-! Success-shape lemmas for each operation. -/

theorem get_ok_some {fs : FS} {t pk : String} {c : Doc}
    (h : get fs t pk = .ok (some c)) :
    nameOk t pk = true ∧ pk ≠ "" ∧
      ∃ tb, alookup fs t = some tb ∧ alookup tb pk = some (.file (some c)) := by
  unfold get at h
  by_cases hno : nameOk t pk = true
  · simp only [hno, Bool.not_true, Bool.false_eq_true, if_false] at h
    have h2 : (match alookup fs t with
        | none => (none : Option Doc)
        | some tb =>
          if pk = "" then none
          else
            match alookup tb pk with
            | some (.file (some d)) => some d
            | _ => none) = some c := by
      injection h
    cases hft : alookup fs t with
    | none =>
      rw [hft] at h2
      exact absurd h2 (by simp)
    | some tb =>
      rw [hft] at h2
      have h3 : (if pk = "" then (none : Option Doc)
          else
            match alookup tb pk with
            | some (.file (some d)) => some d
            | _ => none) = some c := h2
      by_cases hpk : pk = ""
      · rw [if_pos hpk] at h3
        exact absurd h3 (by simp)
      · rw [if_neg hpk] at h3
        refine ⟨hno, hpk, tb, rfl, ?_⟩
        cases hpe : alookup tb pk with
        | none =>
          rw [hpe] at h3
          exact absurd h3 (by simp)
        | some e =>
          cases e with
          | file cc =>
            cases cc with
            | none =>
              rw [hpe] at h3
              exact absurd h3 (by simp)
            | some d2 =>
              rw [hpe] at h3
              have h4 : d2 = c := by
                have h5 : some d2 = some c := h3
                injection h5
              rw [h4]
          | idx es =>
            rw [hpe] at h3
            exact absurd h3 (by simp)
  · simp [hno] at h

theorem get_ok_char {fs : FS} {t pk : String} {cur : Option Doc}
    (h : get fs t pk = .ok cur) (hne : pk ≠ "") {tb : Table}
    (hft : alookup fs t = some tb) : cur = fileDoc tb pk := by
  unfold get at h
  by_cases hno : nameOk t pk = true
  · simp only [hno, Bool.not_true, Bool.false_eq_true, if_false] at h
    have h2 : (match alookup fs t with
        | none => (none : Option Doc)
        | some tb =>
          if pk = "" then none
          else
            match alookup tb pk with
            | some (.file (some d)) => some d
            | _ => none) = cur := by
      injection h
    rw [hft] at h2
    have h3 : (if pk = "" then (none : Option Doc)
        else
          match alookup tb pk with
          | some (.file (some d)) => some d
          | _ => none) = cur := h2
    rw [if_neg hne] at h3
    unfold fileDoc
    cases hpe : alookup tb pk with
    | none =>
      rw [hpe] at h3
      exact h3.symm
    | some e =>
      cases e with
      | file cc =>
        cases cc with
        | none =>
          rw [hpe] at h3
          exact h3.symm
        | some d2 =>
          rw [hpe] at h3
          exact h3.symm
      | idx es =>
        rw [hpe] at h3
        exact h3.symm
  · simp [hno] at h

theorem targetExists_false {fs : FS} {t pk : String} {tb : Table}
    (h : targetExists fs t pk = false) (hft : alookup fs t = some tb) :
    pk ≠ "" ∧ alookup tb pk = none := by
  unfold targetExists at h
  rw [hft] at h
  have h2 : (if pk = "" then true else (alookup tb pk).isSome) = false := h
  by_cases hpk : pk = ""
  · rw [if_pos hpk] at h2
    exact absurd h2 (by simp)
  · rw [if_neg hpk] at h2
    refine ⟨hpk, ?_⟩
    cases he : alookup tb pk with
    | none => rfl
    | some e =>
      rw [he] at h2
      exact absurd h2 (by simp)

theorem indexApply_other {tb : Table} {field k : String} (pk v : String)
    (hk : k ≠ "@" ++ field) : alookup (indexApply tb pk field v) k = alookup tb k := by
  unfold indexApply
  cases h : alookup tb ("@" ++ field) with
  | none => rfl
  | some e =>
    cases e with
    | file c => rfl
    | idx es => exact alookup_aset_ne _ _ hk

theorem indexApply_self {tb : Table} {field : String} {es : List (String × String)}
    (pk v : String) (h : alookup tb ("@" ++ field) = some (.idx es)) :
    alookup (indexApply tb pk field v) ("@" ++ field) = some (.idx (aset es v pk)) := by
  unfold indexApply
  rw [h]
  exact alookup_aset_self _ _ _

theorem indexApply_file_lookup {tb : Table} {k : String} {c : Option Doc}
    (pk field v : String) (h : alookup tb k = some (.file c)) :
    alookup (indexApply tb pk field v) k = some (.file c) := by
  by_cases hk2 : k = "@" ++ field
  · subst hk2
    cases hat : alookup tb ("@" ++ field) with
    | none =>
      rw [hat] at h
      exact Option.noConfusion h
    | some e =>
      cases e with
      | file c2 =>
        have heq : indexApply tb pk field v = tb := by
          unfold indexApply
          rw [hat]
        rw [heq]
        exact h
      | idx es =>
        rw [hat] at h
        simp at h
  · rw [indexApply_other _ _ hk2]
    exact h

theorem indexApply_file_rev {tb : Table} {pk field v k : String} {c : Option Doc}
    (h : alookup (indexApply tb pk field v) k = some (.file c)) :
    alookup tb k = some (.file c) := by
  by_cases hk2 : k = "@" ++ field
  · subst hk2
    cases hat : alookup tb ("@" ++ field) with
    | none =>
      have heq : indexApply tb pk field v = tb := by
        unfold indexApply
        rw [hat]
      rw [heq, hat] at h
      exact h
    | some e =>
      cases e with
      | file c2 =>
        have heq : indexApply tb pk field v = tb := by
          unfold indexApply
          rw [hat]
        rw [heq, hat] at h
        exact h
      | idx es =>
        rw [indexApply_self pk v hat] at h
        exact absurd h (by simp)
  · rw [indexApply_other _ _ hk2] at h
    exact h

/-! Relating the raising definitions to their non-raising effects. -/

theorem alookup_of_all {α : Type} {l : List (String × α)} {p : String × α → Bool}
    (hall : l.all p = true) {k : String} {v : α} (h : alookup l k = some v) :
    p (k, v) = true :=
  List.all_eq_true.mp hall _ (alookup_mem h)

theorem safeName_parts {v : String} (h : safeName v = true) :
    strContains v ".." = false ∧ strContains v "/" = false ∧
      strContains v "\\" = false := by
  unfold safeName at h
  rcases h1 : strContains v ".." <;> rcases h2 : strContains v "/" <;>
    rcases h3 : strContains v "\\" <;> simp_all

theorem wfVal_plain {v : String} (h : wfVal v = true) : plainSeg v = true := by
  simp only [wfVal, Bool.and_eq_true, bne_iff_ne] at h
  obtain ⟨⟨hs, hne⟩, hnd⟩ := h
  have hdd : v ≠ ".." := by
    intro he
    rw [he] at hs
    exact absurd hs (by decide)
  simp [plainSeg, (safeName_parts hs).2.1, hne, hnd, hdd]

theorem docWfB_plain {d : Doc} (h : docWfB d = true) : docPlainB d = true := by
  unfold docWfB at h
  unfold docPlainB
  rw [List.all_eq_true] at h ⊢
  intro p hp
  exact wfVal_plain (h p hp)

theorem indexSet_ok_eq {tb tb2 : Table} {pk field v : String}
    (h : indexSet tb pk field v = .ok tb2) : tb2 = indexApply tb pk field v := by
  unfold indexSet at h
  by_cases h1 : safeName ("@" ++ field) = true
  · simp only [h1, Bool.not_true, Bool.false_eq_true, if_false] at h
    by_cases h2 : plainSeg v = true
    · simp only [h2, Bool.not_true, Bool.false_eq_true, if_false] at h
      unfold indexApply
      cases hat : alookup tb ("@" ++ field) with
      | none =>
        rw [hat] at h
        exact absurd h (by simp)
      | some e =>
        cases e with
        | file c =>
          rw [hat] at h
          exact absurd h (by simp)
        | idx es =>
          rw [hat] at h
          have h3 : Except.ok (ε := Err)
              (aset tb ("@" ++ field) (.idx (aset es v pk))) = .ok tb2 := h
          injection h3 with h4
          exact h4.symm
    · have h2f : plainSeg v = false := by simpa using h2
      simp [h2f] at h
  · have h1f : safeName ("@" ++ field) = false := by simpa using h1
    simp [h1f] at h

theorem indexSet_ok {tb : Table} {field v : String} {es : List (String × String)}
    (pk : String) (hs : safeName ("@" ++ field) = true) (hv : plainSeg v = true)
    (hat : alookup tb ("@" ++ field) = some (.idx es)) :
    indexSet tb pk field v = .ok (indexApply tb pk field v) := by
  unfold indexSet indexApply
  rw [hat]
  simp [hs, hv]

theorem indexSet_err {tb : Table} {pk field v : String} {e : Err}
    (h : indexSet tb pk field v = .error e) :
    e = .unsafeName ∨ e = .indexError := by
  unfold indexSet at h
  by_cases h1 : safeName ("@" ++ field) = true
  · simp only [h1, Bool.not_true, Bool.false_eq_true, if_false] at h
    by_cases h2 : plainSeg v = true
    · simp only [h2, Bool.not_true, Bool.false_eq_true, if_false] at h
      cases hat : alookup tb ("@" ++ field) with
      | none =>
        rw [hat] at h
        right
        injection h with h4
        exact h4.symm
      | some e2 =>
        cases e2 with
        | file c =>
          rw [hat] at h
          right
          injection h with h4
          exact h4.symm
        | idx es =>
          rw [hat] at h
          exact absurd h (by simp)
    · have h2f : plainSeg v = false := by simpa using h2
      simp only [h2f, Bool.not_false, if_true] at h
      right
      injection h with h4
      exact h4.symm
  · have h1f : safeName ("@" ++ field) = false := by simpa using h1
    simp only [h1f, Bool.not_false, if_true] at h
    left
    injection h with h4
    exact h4.symm

theorem updStep_none_ok (pk : String) (old : Option Doc) (tb : Table)
    (dn : String) : updStep pk old none tb dn = .ok (stepApply pk old none tb dn) := by
  cases hdn : alookup tb dn with
  | none => simp only [updStep, stepApply, hdn]
  | some e =>
    cases e with
    | file c => simp only [updStep, stepApply, hdn]
    | idx es => simp only [updStep, stepApply, hdn]

theorem updStep_ok_eq {pk : String} {old new : Option Doc} {tb tb2 : Table}
    {dn : String} (h : updStep pk old new tb dn = .ok tb2) :
    tb2 = stepApply pk old new tb dn := by
  cases hdn : alookup tb dn with
  | none =>
    simp only [updStep, hdn] at h
    simp only [stepApply, hdn]
    injection h with h2
    exact h2.symm
  | some e =>
    cases e with
    | file c =>
      simp only [updStep, hdn] at h
      simp only [stepApply, hdn]
      injection h with h2
      exact h2.symm
    | idx es =>
      simp only [updStep, hdn] at h
      simp only [stepApply, hdn]
      rcases new with _ | nd
      · injection h with h2
        exact h2.symm
      · rcases hnd : alookup nd (stripAts dn) with _ | nv
        · simp only [hnd] at h
          simp only [hnd]
          injection h with h2
          exact h2.symm
        · simp only [hnd] at h
          simp only [hnd]
          exact indexSet_ok_eq h

theorem updStep_err {pk : String} {old new : Option Doc} {tb : Table}
    {dn : String} {e : Err} (h : updStep pk old new tb dn = .error e) :
    e = .unsafeName ∨ e = .indexError := by
  cases hdn : alookup tb dn with
  | none =>
    simp only [updStep, hdn] at h
    exact absurd h (by simp)
  | some e2 =>
    cases e2 with
    | file c =>
      simp only [updStep, hdn] at h
      exact absurd h (by simp)
    | idx es =>
      simp only [updStep, hdn] at h
      rcases new with _ | nd
      · exact absurd h (by simp)
      · rcases hnd : alookup nd (stripAts dn) with _ | nv
        · simp only [hnd] at h
          exact absurd h (by simp)
        · simp only [hnd] at h
          exact indexSet_err h

theorem updStep_wf_ok (pk : String) (old new : Option Doc) (tb : Table)
    (dn : String) (hG : GoodTable tb)
    (hnp : ∀ nd, new = some nd → docPlainB nd = true) :
    updStep pk old new tb dn = .ok (stepApply pk old new tb dn) := by
  cases hdn : alookup tb dn with
  | none => simp only [updStep, stepApply, hdn]
  | some e =>
    cases e with
    | file c => simp only [updStep, stepApply, hdn]
    | idx es =>
      rcases new with _ | nd
      · exact updStep_none_ok pk old tb dn
      · obtain ⟨hgn, hsn⟩ := hG dn es hdn
        have hs : safeName ("@" ++ stripAts dn) = true := by
          rw [← hgn]
          exact hsn
        simp only [updStep, stepApply, hdn]
        rcases hnd : alookup nd (stripAts dn) with _ | nv
        · simp [hnd]
        · simp only [hnd]
          have hv : plainSeg nv = true :=
            alookup_of_all (hnp nd rfl) hnd
          rcases old with _ | o
          · exact indexSet_ok pk hs hv (by rw [← hgn]; exact hdn)
          · rcases ho : alookup o (stripAts dn) with _ | ov
            · simp only [ho]
              exact indexSet_ok pk hs hv (by rw [← hgn]; exact hdn)
            · rcases hov : alookup es ov with _ | k0
              · simp only [ho, hov]
                exact indexSet_ok pk hs hv (by rw [← hgn]; exact hdn)
              · by_cases hk : k0 = pk
                · simp only [ho, hov, if_pos hk]
                  exact indexSet_ok pk hs hv
                    (by rw [← hgn]; exact alookup_aset_self tb dn _)
                · simp only [ho, hov, if_neg hk]
                  exact indexSet_ok pk hs hv (by rw [← hgn]; exact hdn)

theorem updFold_ok_eq {pk : String} {old new : Option Doc} :
    ∀ {L : List String} {tb tb2 : Table},
    updFold pk old new tb L = .ok tb2 →
      tb2 = L.foldl (stepApply pk old new) tb := by
  intro L
  induction L with
  | nil =>
    intro tb tb2 h
    simp only [updFold] at h
    simp only [List.foldl_nil]
    injection h with h2
    exact h2.symm
  | cons dn ds ih =>
    intro tb tb2 h
    simp only [updFold] at h
    cases hstep : updStep pk old new tb dn with
    | error e =>
      rw [hstep] at h
      exact absurd h (by simp)
    | ok tbm =>
      rw [hstep] at h
      rw [List.foldl_cons, ← updStep_ok_eq hstep]
      exact ih h

theorem updFold_err {pk : String} {old new : Option Doc} :
    ∀ {L : List String} {tb : Table} {e : Err},
    updFold pk old new tb L = .error e →
      e = .unsafeName ∨ e = .indexError := by
  intro L
  induction L with
  | nil =>
    intro tb e h
    simp only [updFold] at h
    exact absurd h (by simp)
  | cons dn ds ih =>
    intro tb e h
    simp only [updFold] at h
    cases hstep : updStep pk old new tb dn with
    | error e2 =>
      rw [hstep] at h
      have h2 : e2 = e := by injection h
      rw [← h2]
      exact updStep_err hstep
    | ok tbm =>
      rw [hstep] at h
      exact ih h

theorem updFold_none_ok (pk : String) (old : Option Doc) :
    ∀ (L : List String) (tb : Table),
    updFold pk old none tb L = .ok (L.foldl (stepApply pk old none) tb) := by
  intro L
  induction L with
  | nil =>
    intro tb
    simp only [updFold, List.foldl_nil]
  | cons dn ds ih =>
    intro tb
    simp only [updFold, List.foldl_cons]
    rw [updStep_none_ok pk old tb dn]
    exact ih (stepApply pk old none tb dn)

theorem updFold_wf_ok (pk : String) (old new : Option Doc)
    (hnp : ∀ nd, new = some nd → docPlainB nd = true) :
    ∀ (L : List String) (tb : Table), GoodTable tb →
    updFold pk old new tb L = .ok (L.foldl (stepApply pk old new) tb) := by
  intro L
  induction L with
  | nil =>
    intro tb _
    simp only [updFold, List.foldl_nil]
  | cons dn ds ih =>
    intro tb hG
    simp only [updFold, List.foldl_cons]
    rw [updStep_wf_ok pk old new tb dn hG hnp]
    exact ih (stepApply pk old new tb dn) (goodTable_stepApply pk old new tb dn hG)

theorem updateIndex_ok_eq {fs fs2 : FS} {t pk : String} {old new : Option Doc}
    (h : updateIndex fs t pk old new = .ok fs2) :
    fs2 = syncApply fs t pk old new := by
  unfold updateIndex at h
  unfold syncApply
  cases hft : alookup fs t with
  | none =>
    simp only [hft] at h ⊢
    injection h with h2
    exact h2.symm
  | some tb =>
    simp only [hft] at h ⊢
    cases hupf : updFold pk old new tb (globDirs tb) with
    | error e =>
      rw [hupf] at h
      exact absurd h (by simp)
    | ok tb2 =>
      rw [hupf] at h
      have h3 : Except.ok (ε := Err) (aset fs t tb2) = .ok fs2 := h
      injection h3 with h2
      rw [← h2, updFold_ok_eq hupf]

theorem updateIndex_err {fs : FS} {t pk : String} {old new : Option Doc} {e : Err}
    (h : updateIndex fs t pk old new = .error e) :
    e = .unsafeName ∨ e = .indexError := by
  unfold updateIndex at h
  cases hft : alookup fs t with
  | none =>
    simp only [hft] at h
    exact absurd h (by simp)
  | some tb =>
    simp only [hft] at h
    cases hupf : updFold pk old new tb (globDirs tb) with
    | error e2 =>
      rw [hupf] at h
      have h2 : e2 = e := by
        have h3 : Except.error (α := FS) e2 = .error e := h
        injection h3
      rw [← h2]
      exact updFold_err hupf
    | ok tb2 =>
      rw [hupf] at h
      exact absurd h (by simp)

theorem updateIndex_none_ok (fs : FS) (t pk : String) (old : Option Doc) :
    updateIndex fs t pk old none = .ok (syncApply fs t pk old none) := by
  unfold updateIndex syncApply
  cases hft : alookup fs t with
  | none => simp only [hft]
  | some tb =>
    simp only [hft, updFold_none_ok pk old (globDirs tb) tb]

theorem updateIndex_wf_ok {fs : FS} {t : String} {tb : Table}
    (pk : String) (old new : Option Doc)
    (hft : alookup fs t = some tb) (hG : GoodTable tb)
    (hnp : ∀ nd, new = some nd → docPlainB nd = true) :
    updateIndex fs t pk old new = .ok (syncApply fs t pk old new) := by
  unfold updateIndex syncApply
  simp only [hft, updFold_wf_ok pk old new hnp (globDirs tb) tb hG]

theorem goodTable_aset_file {tb : Table} (hG : GoodTable tb) (pk : String)
    (c : Option Doc) : GoodTable (aset tb pk (.file c)) := by
  intro n es hn
  by_cases hnp : n = pk
  · subst hnp
    rw [alookup_aset_self] at hn
    exact absurd hn (by simp)
  · rw [alookup_aset_ne _ _ hnp] at hn
    exact hG n es hn

theorem write_ok_eq {fs fs1 : FS} {t pk : String} {d : Doc}
    (h : write fs t pk d = .ok fs1) :
    nameOk t pk = true ∧ pk ≠ "" ∧
      ∃ tb, alookup fs t = some tb ∧
        fs1 = aset fs t (aset tb pk (.file (some d))) := by
  unfold write at h
  by_cases hst : safeName t = true
  · simp only [hst, Bool.not_true, Bool.false_eq_true, if_false] at h
    cases hft : alookup fs t with
    | none =>
      rw [hft] at h
      exact absurd h (by simp)
    | some tb =>
      rw [hft] at h
      by_cases hno : nameOk t pk = true
      · simp only [hno, Bool.not_true, Bool.false_eq_true, if_false] at h
        by_cases hne : pk = ""
        · rw [if_pos hne] at h
          exact absurd h (by simp)
        · rw [if_neg hne] at h
          refine ⟨hno, hne, tb, rfl, ?_⟩
          injection h with h2
          exact h2.symm
      · have hno2 : nameOk t pk = false := by simpa using hno
        simp [hno2] at h
  · have hst2 : safeName t = false := by simpa using hst
    simp [hst2] at h

theorem write_ok {fs : FS} {t pk : String} {tb : Table} (d : Doc)
    (hno : nameOk t pk = true) (hne : pk ≠ "")
    (hft : alookup fs t = some tb) :
    write fs t pk d = .ok (aset fs t (aset tb pk (.file (some d)))) := by
  unfold write
  simp [nameOk_safe hno, hft, hno, hne]

theorem write_err_ne {fs : FS} {t pk : String} {d : Doc} {e : Err}
    (hne : pk ≠ "") (h : write fs t pk d = .error e) :
    e = .unsafeName ∨ e = .tableNotFound := by
  unfold write at h
  by_cases hst : safeName t = true
  · simp only [hst, Bool.not_true, Bool.false_eq_true, if_false] at h
    cases hft : alookup fs t with
    | none =>
      rw [hft] at h
      right
      injection h with h2
      exact h2.symm
    | some tb =>
      rw [hft] at h
      by_cases hno : nameOk t pk = true
      · simp only [hno, Bool.not_true, Bool.false_eq_true, if_false,
          if_neg hne] at h
        exact absurd h (by simp)
      · have hno2 : nameOk t pk = false := by simpa using hno
        simp only [hno2, Bool.not_false, if_true] at h
        left
        injection h with h2
        exact h2.symm
  · have hst2 : safeName t = false := by simpa using hst
    simp only [hst2, Bool.not_false, if_true] at h
    left
    injection h with h2
    exact h2.symm

theorem docTruthy_some {c : Doc} (h : c ≠ []) : docTruthy (some c) = true := by
  cases c with
  | nil => exact absurd rfl h
  | cons kv tl => rfl

theorem docTruthy_true {cur : Option Doc} (h : docTruthy cur = true) :
    ∃ c, cur = some c ∧ c ≠ [] := by
  cases cur with
  | none => exact absurd h (by simp [docTruthy])
  | some c =>
    cases c with
    | nil => exact absurd h (by simp [docTruthy])
    | cons kv tl => exact ⟨kv :: tl, rfl, by simp⟩

/-! Success shapes of the mutating operations. -/

theorem insert_ok {fs fs2 : FS} {t pk : String} {d : Doc}
    (h : insert fs t pk d = .ok fs2) :
    ∃ tb, alookup fs t = some tb ∧ targetExists fs t pk = false ∧
      pk ≠ "" ∧ nameOk t pk = true ∧
      updateIndex (aset fs t (aset tb pk (.file (some d)))) t pk none (some d)
        = .ok fs2 := by
  unfold insert at h
  by_cases hno : nameOk t pk = true
  · by_cases hte : targetExists fs t pk = true
    · simp [hno, hte] at h
    · have hte2 : targetExists fs t pk = false := by
        simpa using hte
      simp only [hno, hte2, Bool.not_true, Bool.false_eq_true, if_false] at h
      cases hw : write fs t pk d with
      | error e =>
        rw [hw] at h
        exact absurd h (by simp)
      | ok fs1 =>
        rw [hw] at h
        obtain ⟨hno2, hne, tb, hft, hfs1⟩ := write_ok_eq hw
        rw [hfs1] at h
        exact ⟨tb, hft, hte2, hne, hno, h⟩
  · simp [hno] at h

theorem update_ok {fs fs2 : FS} {t pk : String} {d : Doc}
    (h : update fs t pk d = .ok fs2) :
    ∃ tb c, alookup fs t = some tb ∧ alookup tb pk = some (.file (some c)) ∧
      c ≠ [] ∧
      updateIndex (aset fs t (aset tb pk (.file (some d)))) t pk
        (some c) (some d) = .ok fs2 := by
  unfold update at h
  cases hg : get fs t pk with
  | error e =>
    rw [hg] at h
    exact absurd h (by simp)
  | ok cur =>
    rw [hg] at h
    by_cases htr : docTruthy cur = true
    · simp only [htr, Bool.not_true, Bool.false_eq_true, if_false] at h
      obtain ⟨c, hc, hcne⟩ := docTruthy_true htr
      subst hc
      obtain ⟨hno, hne, tb, hft, hpk⟩ := get_ok_some hg
      rw [write_ok d hno hne hft] at h
      exact ⟨tb, c, hft, hpk, hcne, h⟩
    · have htr2 : docTruthy cur = false := by simpa using htr
      simp [htr2] at h

theorem upsert_ok {fs fs2 : FS} {t pk : String} {d : Doc}
    (h : upsert fs t pk d = .ok fs2) :
    ∃ tb cur, alookup fs t = some tb ∧ get fs t pk = .ok cur ∧ pk ≠ "" ∧
      updateIndex (aset fs t (aset tb pk (.file (some d)))) t pk
        cur (some d) = .ok fs2 := by
  unfold upsert at h
  cases hg : get fs t pk with
  | error e =>
    rw [hg] at h
    exact absurd h (by simp)
  | ok cur =>
    rw [hg] at h
    cases hw : write fs t pk d with
    | error e =>
      rw [hw] at h
      exact absurd h (by simp)
    | ok fs1 =>
      rw [hw] at h
      obtain ⟨hno2, hne, tb, hft, hfs1⟩ := write_ok_eq hw
      rw [hfs1] at h
      exact ⟨tb, cur, hft, rfl, hne, h⟩

theorem delete_ok {fs fs2 : FS} {t pk : String} {b : Bool}
    (h : delete fs t pk = .ok (fs2, b)) :
    fs2 = fs ∨ ∃ tb c, alookup fs t = some tb ∧
      alookup tb pk = some (.file (some c)) ∧
      updateIndex (aset fs t (aerase tb pk)) t pk (some c) none = .ok fs2 := by
  unfold delete at h
  cases hg : get fs t pk with
  | error e =>
    rw [hg] at h
    exact absurd h (by simp)
  | ok cur =>
    rw [hg] at h
    by_cases htr : docTruthy cur = true
    · simp only [htr, Bool.not_true, Bool.false_eq_true, if_false] at h
      obtain ⟨c, hc, hcne⟩ := docTruthy_true htr
      subst hc
      obtain ⟨hno, hne, tb, hft, hpk⟩ := get_ok_some hg
      by_cases hte : targetExists fs t pk = true
      · rw [if_pos hte] at h
        cases hupd : updateIndex (eraseRec fs t pk) t pk (some c) none with
        | error e =>
          rw [hupd] at h
          exact absurd h (by simp)
        | ok fs3 =>
          rw [hupd] at h
          have h2 : ((fs3, true) : FS × Bool) = (fs2, b) := by injection h
          have h3 : fs3 = fs2 := congrArg Prod.fst h2
          right
          refine ⟨tb, c, hft, hpk, ?_⟩
          have her : eraseRec fs t pk = aset fs t (aerase tb pk) := by
            unfold eraseRec
            rw [hft]
          rw [← her, hupd, h3]
      · rw [if_neg hte] at h
        left
        have h2 : ((fs, false) : FS × Bool) = (fs2, b) := by injection h
        exact (congrArg Prod.fst h2).symm
    · have htr2 : docTruthy cur = false := by simpa using htr
      simp only [htr2, Bool.not_false, if_true] at h
      left
      have h2 : ((fs, false) : FS × Bool) = (fs2, b) := by injection h
      exact (congrArg Prod.fst h2).symm

theorem scanTable_mem {tb : Table} {pat n : String} {d : Doc}
    (hnd : keysND tb) (h : (n, d) ∈ scanTable tb pat) :
    alookup tb n = some (.file (some d)) := by
  unfold scanTable at h
  rcases List.mem_filterMap.mp h with ⟨p, hmem, hf⟩
  obtain ⟨n0, e⟩ := p
  by_cases hg : (globMatch pat n0 && !strContains n0 ":") = true
  · rw [if_pos hg] at hf
    cases e with
    | file c =>
      cases c with
      | none => exact Option.noConfusion hf
      | some d2 =>
        have h2 : (n0, d2) = (n, d) := by injection hf
        have hn : n0 = n := congrArg Prod.fst h2
        have hd : d2 = d := congrArg Prod.snd h2
        subst hn
        subst hd
        exact alookup_of_mem_nd hnd hmem
    | idx es => exact Option.noConfusion hf
  · rw [if_neg hg] at hf
    exact Option.noConfusion hf

theorem backfillApply_inv (field : String) (hf : field.data.head? ≠ some '@')
    (hsf : safeName ("@" ++ field) = true) :
    ∀ (recs : List (String × Doc)) (acc : Table),
    keysND acc → GoodTable acc → EntsOK acc → DocsWf acc →
    (∀ pr ∈ recs, alookup acc pr.1 = some (.file (some pr.2))) →
    TInv (backfillApply field recs acc) := by
  intro recs
  induction recs with
  | nil =>
    intro acc h1 h2 h3 hD _
    exact ⟨h1, h2, h3, hD⟩
  | cons pr rest ih =>
    intro acc h1 h2 h3 hD h4
    have hpr := h4 pr (List.mem_cons_self _ _)
    have h4r : ∀ q ∈ rest, alookup acc q.1 = some (.file (some q.2)) :=
      fun q hq => h4 q (List.mem_cons_of_mem _ hq)
    unfold backfillApply
    simp only [List.foldl_cons]
    rcases hprv : alookup pr.2 field with _ | v
    · simp only [hprv]
      exact ih acc h1 h2 h3 hD h4r
    · simp only [hprv]
      have hgat : ("@" ++ field) = "@" ++ stripAts ("@" ++ field) := by
        rw [stripAts_append hf]
      refine ih (indexApply acc pr.1 field v) (keysND_indexApply _ _ _ _ h1)
        ?_ ?_ ?_ ?_
      · intro n es hn
        by_cases hne : n = "@" ++ field
        · subst hne
          exact ⟨hgat, hsf⟩
        · rw [indexApply_other _ _ hne] at hn
          exact h2 n es hn
      · intro n es2 v2 k2 hn hv2
        by_cases hne : n = "@" ++ field
        · subst hne
          cases hat : alookup acc ("@" ++ field) with
          | none =>
            have heq : indexApply acc pr.1 field v = acc := by
              unfold indexApply
              rw [hat]
            rw [heq] at hn ⊢
            exact h3 _ es2 v2 k2 hn hv2
          | some e =>
            cases e with
            | file c =>
              have heq : indexApply acc pr.1 field v = acc := by
                unfold indexApply
                rw [hat]
              rw [heq] at hn ⊢
              exact h3 _ es2 v2 k2 hn hv2
            | idx es =>
              rw [indexApply_self pr.1 v hat] at hn
              have hes2 : es2 = aset es v pr.1 := by
                have h5 : Entry.idx (aset es v pr.1) = Entry.idx es2 := by
                  injection hn
                have h6 := h5.symm
                injection h6
              rw [hes2] at hv2
              by_cases hvv : v2 = v
              · rw [hvv] at hv2
                rw [alookup_aset_self] at hv2
                have hk2 : pr.1 = k2 := by injection hv2
                subst hk2
                refine ⟨pr.2, ?_, ?_⟩
                · exact indexApply_file_lookup pr.1 field v hpr
                · rw [stripAts_append hf, hvv]
                  exact hprv
              · rw [alookup_aset_ne _ _ hvv] at hv2
                obtain ⟨d0, hk0, hf0⟩ := h3 ("@" ++ field) es v2 k2 hat hv2
                exact ⟨d0, indexApply_file_lookup pr.1 field v hk0, hf0⟩
        · rw [indexApply_other _ _ hne] at hn
          obtain ⟨d0, hk0, hf0⟩ := h3 n es2 v2 k2 hn hv2
          exact ⟨d0, indexApply_file_lookup pr.1 field v hk0, hf0⟩
      · intro k dd hk
        exact hD k dd (indexApply_file_rev hk)
      · intro q hq
        exact indexApply_file_lookup pr.1 field v (h4r q hq)

theorem backfill_ok_eq {field : String} :
    ∀ {recs : List (String × Doc)} {tb tb2 : Table},
    backfill field recs tb = .ok tb2 → tb2 = backfillApply field recs tb := by
  intro recs
  induction recs with
  | nil =>
    intro tb tb2 h
    simp only [backfill] at h
    simp only [backfillApply, List.foldl_nil]
    injection h with h2
    exact h2.symm
  | cons pr rest ih =>
    intro tb tb2 h
    rcases hprv : alookup pr.2 field with _ | v
    · simp only [backfill, hprv] at h
      have hgoal : backfillApply field (pr :: rest) tb
          = backfillApply field rest tb := by
        simp only [backfillApply, List.foldl_cons, hprv]
      rw [hgoal]
      exact ih h
    · simp only [backfill, hprv] at h
      have hgoal : backfillApply field (pr :: rest) tb
          = backfillApply field rest (indexApply tb pr.1 field v) := by
        simp only [backfillApply, List.foldl_cons, hprv]
      rw [hgoal]
      cases hset : indexSet tb pr.1 field v with
      | error e =>
        rw [hset] at h
        exact absurd h (by simp)
      | ok tbm =>
        rw [hset] at h
        have h2 : backfill field rest tbm = .ok tb2 := h
        rw [← indexSet_ok_eq hset]
        exact ih h2

theorem backfill_err {field : String} :
    ∀ {recs : List (String × Doc)} {tb : Table} {e : Err},
    backfill field recs tb = .error e → e = .unsafeName ∨ e = .indexError := by
  intro recs
  induction recs with
  | nil =>
    intro tb e h
    simp only [backfill] at h
    exact absurd h (by simp)
  | cons pr rest ih =>
    intro tb e h
    rcases hprv : alookup pr.2 field with _ | v
    · simp only [backfill, hprv] at h
      exact ih h
    · simp only [backfill, hprv] at h
      cases hset : indexSet tb pr.1 field v with
      | error e2 =>
        rw [hset] at h
        have h2 : e2 = e := by
          have h3 : Except.error (α := Table) e2 = .error e := h
          injection h3
        rw [← h2]
        exact indexSet_err hset
      | ok tbm =>
        rw [hset] at h
        have h2 : backfill field rest tbm = .error e := h
        exact ih h2

theorem backfill_wf_ok {field : String} (hsf : safeName ("@" ++ field) = true) :
    ∀ (recs : List (String × Doc)) (tb : Table) (es : List (String × String)),
    alookup tb ("@" ++ field) = some (.idx es) →
    (∀ pr ∈ recs, ∀ v, alookup pr.2 field = some v → plainSeg v = true) →
    backfill field recs tb = .ok (backfillApply field recs tb) := by
  intro recs
  induction recs with
  | nil =>
    intro tb es hat _
    simp only [backfill, backfillApply, List.foldl_nil]
  | cons pr rest ih =>
    intro tb es hat hplain
    rcases hprv : alookup pr.2 field with _ | v
    · simp only [backfill, hprv]
      have hgoal : backfillApply field (pr :: rest) tb
          = backfillApply field rest tb := by
        simp only [backfillApply, List.foldl_cons, hprv]
      rw [hgoal]
      exact ih tb es hat
        (fun q hq => hplain q (List.mem_cons_of_mem _ hq))
    · have hv : plainSeg v = true :=
        hplain pr (List.mem_cons_self _ _) v hprv
      simp only [backfill, hprv]
      rw [indexSet_ok pr.1 hsf hv hat]
      have hgoal : backfillApply field (pr :: rest) tb
          = backfillApply field rest (indexApply tb pr.1 field v) := by
        simp only [backfillApply, List.foldl_cons, hprv]
      rw [hgoal]
      exact ih (indexApply tb pr.1 field v) (aset es v pr.1)
        (indexApply_self pr.1 v hat)
        (fun q hq => hplain q (List.mem_cons_of_mem _ hq))

theorem create_index_ok {fs fs2 : FS} {t field : String}
    (h : create_index fs t field = .ok fs2) :
    safeName ("@" ++ field) = true ∧
    ∃ tb tbf, alookup fs t = some tb ∧
      ((∃ es, alookup tb ("@" ++ field) = some (.idx es) ∧
          backfill field (scanTable tb "*") tb = .ok tbf) ∨
        (alookup tb ("@" ++ field) = none ∧
          backfill field (scanTable tb "*")
            (aset tb ("@" ++ field) (.idx [])) = .ok tbf)) ∧
      fs2 = aset fs t tbf := by
  unfold create_index at h
  by_cases hst : safeName t = true
  · by_cases hsf : safeName ("@" ++ field) = true
    · simp only [hst, hsf, Bool.not_true, Bool.false_eq_true, if_false] at h
      cases hft : alookup fs t with
      | none =>
        rw [hft] at h
        exact absurd h (by simp)
      | some tb =>
        rw [hft] at h
        have h1 : (match alookup tb ("@" ++ field) with
            | some (Entry.file c) => Except.error (α := FS) Err.alreadyExists
            | some (Entry.idx es) =>
              match backfill field (scanTable tb "*") tb with
              | .ok tb2 => .ok (aset fs t tb2)
              | .error e => .error e
            | none =>
              match backfill field (scanTable tb "*")
                  (aset tb ("@" ++ field) (Entry.idx [])) with
              | .ok tb2 => .ok (aset fs t tb2)
              | .error e => .error e) = Except.ok fs2 := h
        cases hat : alookup tb ("@" ++ field) with
        | none =>
          rw [hat] at h1
          cases hbf : backfill field (scanTable tb "*")
              (aset tb ("@" ++ field) (.idx [])) with
          | error e =>
            rw [hbf] at h1
            exact absurd h1 (by simp)
          | ok tbf =>
            rw [hbf] at h1
            refine ⟨hsf, tb, tbf, rfl, Or.inr ⟨hat, hbf⟩, ?_⟩
            have h4 : Except.ok (ε := Err) (aset fs t tbf) = .ok fs2 := h1
            injection h4 with h3
            exact h3.symm
        | some e =>
          cases e with
          | file c =>
            rw [hat] at h1
            exact absurd h1 (by simp)
          | idx es =>
            rw [hat] at h1
            cases hbf : backfill field (scanTable tb "*") tb with
            | error e2 =>
              rw [hbf] at h1
              exact absurd h1 (by simp)
            | ok tbf =>
              rw [hbf] at h1
              refine ⟨hsf, tb, tbf, rfl, Or.inl ⟨es, hat, hbf⟩, ?_⟩
              have h4 : Except.ok (ε := Err) (aset fs t tbf) = .ok fs2 := h1
              injection h4 with h3
              exact h3.symm
    · have hsf2 : safeName ("@" ++ field) = false := by simpa using hsf
      simp [hst, hsf2] at h
  · have hst2 : safeName t = false := by simpa using hst
    simp [hst2] at h

theorem create_index_inv {fs fs2 : FS} {t field : String}
    (hInv : Inv fs) (hwf : wfName field = true)
    (h : create_index fs t field = .ok fs2) : Inv fs2 := by
  have hf : field.data.head? ≠ some '@' := wfName_head hwf
  obtain ⟨hsf, tb, tbf, hft, hcase, he⟩ := create_index_ok h
  obtain ⟨hND, hG, hE, hD⟩ := hInv t tb hft
  have hrecs : ∀ pr ∈ scanTable tb "*",
      alookup tb pr.1 = some (.file (some pr.2)) := by
    intro pr hpr
    obtain ⟨n, d⟩ := pr
    exact scanTable_mem hND hpr
  rcases hcase with ⟨es, hat, hbf⟩ | ⟨hat, hbf⟩
  · rw [he, backfill_ok_eq hbf]
    exact Inv_aset hInv (backfillApply_inv field hf hsf _ tb hND hG hE hD hrecs)
  · rw [he, backfill_ok_eq hbf]
    have hother : ∀ n, n ≠ "@" ++ field →
        alookup (aset tb ("@" ++ field) (.idx [])) n = alookup tb n :=
      fun n hn => alookup_aset_ne tb _ hn
    have hself : alookup (aset tb ("@" ++ field) (.idx [])) ("@" ++ field)
        = some (.idx []) := alookup_aset_self tb _ _
    refine Inv_aset hInv (backfillApply_inv field hf hsf _ _
      (keysND_aset hND _ _) ?_ ?_ ?_ ?_)
    · intro n es2 hn
      by_cases hne : n = "@" ++ field
      · subst hne
        refine ⟨?_, hsf⟩
        rw [stripAts_append hf]
      · rw [hother n hne] at hn
        exact hG n es2 hn
    · intro n es2 v2 k2 hn hv2
      by_cases hne : n = "@" ++ field
      · subst hne
        rw [hself] at hn
        have hes2 : es2 = [] := by
          have h5 : Entry.idx ([] : List (String × String)) = Entry.idx es2 := by
            injection hn
          have h6 := h5.symm
          injection h6
        rw [hes2] at hv2
        simp [alookup] at hv2
      · rw [hother n hne] at hn
        obtain ⟨d0, hk0, hf0⟩ := hE n es2 v2 k2 hn hv2
        have hk2 : k2 ≠ "@" ++ field := by
          intro heq
          rw [heq, hat] at hk0
          exact Option.noConfusion hk0
        refine ⟨d0, ?_, hf0⟩
        rw [hother k2 hk2]
        exact hk0
    · intro k dd hk
      by_cases hne : k = "@" ++ field
      · subst hne
        rw [hself] at hk
        exact absurd hk (by simp)
      · rw [hother k hne] at hk
        exact hD k dd hk
    · intro pr hpr
      have h5 := hrecs pr hpr
      have hk2 : pr.1 ≠ "@" ++ field := by
        intro heq
        rw [heq, hat] at h5
        exact Option.noConfusion h5
      rw [hother pr.1 hk2]
      exact h5

theorem link_ok {fs fs2 : FS} {st spk dt dpk : String} {d : Option Doc}
    (h : link fs st spk dt dpk d = .ok fs2) :
    upsert fs st (spk ++ ":" ++ dpk) (d.getD []) = .ok fs2 := by
  unfold link at h
  by_cases h1 : nameOk st spk = true
  · by_cases h2 : targetExists fs st spk = true
    · by_cases h3 : nameOk dt dpk = true
      · by_cases h4 : targetExists fs dt dpk = true
        · simpa [h1, h2, h3, h4] using h
        · have h42 : targetExists fs dt dpk = false := by simpa using h4
          simp [h1, h2, h3, h42] at h
      · have h32 : nameOk dt dpk = false := by simpa using h3
        simp [h1, h2, h32] at h
    · have h22 : targetExists fs st spk = false := by simpa using h2
      simp [h1, h22] at h
  · have h12 : nameOk st spk = false := by simpa using h1
    simp [h12] at h

/-! Per-operation invariant preservation. -/

theorem insert_inv {fs fs2 : FS} {t pk : String} {d : Doc}
    (hInv : Inv fs) (hdw : docWfB d = true)
    (h : insert fs t pk d = .ok fs2) : Inv fs2 := by
  obtain ⟨tb, hft, hte, hne, hno, hupd⟩ := insert_ok h
  rw [updateIndex_ok_eq hupd]
  refine writeCore_inv fs t tb pk none d hInv hft ?_ hdw
  intro d0 hd0
  rw [(targetExists_false hte hft).2] at hd0
  exact Option.noConfusion hd0

theorem update_inv {fs fs2 : FS} {t pk : String} {d : Doc}
    (hInv : Inv fs) (hdw : docWfB d = true)
    (h : update fs t pk d = .ok fs2) : Inv fs2 := by
  obtain ⟨tb, c, hft, hpk, hcne, hupd⟩ := update_ok h
  rw [updateIndex_ok_eq hupd]
  refine writeCore_inv fs t tb pk (some c) d hInv hft ?_ hdw
  intro d0 hd0
  rw [hpk] at hd0
  have h2 : Entry.file (some c) = Entry.file (some d0) := by injection hd0
  have h3 : (some c : Option Doc) = some d0 := by injection h2
  rw [← h3]

theorem upsert_inv {fs fs2 : FS} {t pk : String} {d : Doc}
    (hInv : Inv fs) (hdw : docWfB d = true)
    (h : upsert fs t pk d = .ok fs2) : Inv fs2 := by
  obtain ⟨tb, cur, hft, hgt, hne, hupd⟩ := upsert_ok h
  rw [updateIndex_ok_eq hupd]
  refine writeCore_inv fs t tb pk cur d hInv hft ?_ hdw
  intro d0 hd0
  rw [get_ok_char hgt hne hft, fileDoc_of hd0]

theorem delete_inv {fs fs2 : FS} {t pk : String} {b : Bool}
    (hInv : Inv fs) (h : delete fs t pk = .ok (fs2, b)) : Inv fs2 := by
  rcases delete_ok h with he | ⟨tb, c, hft, hpkl, hupd⟩
  · rw [he]
    exact hInv
  · rw [updateIndex_ok_eq hupd]
    exact eraseCore_inv fs t tb pk c hInv hft hpkl

theorem create_inv {fs fs2 : FS} {t : String}
    (hInv : Inv fs) (h : create fs t = .ok fs2) : Inv fs2 := by
  unfold create at h
  by_cases hst : safeName t = true
  · simp only [hst, Bool.not_true, Bool.false_eq_true, if_false] at h
    cases hft : alookup fs t with
    | some tb =>
      rw [hft] at h
      have h2 : fs = fs2 := by injection h
      rw [← h2]
      exact hInv
    | none =>
      rw [hft] at h
      have h2 : aset fs t [] = fs2 := by injection h
      rw [← h2]
      refine Inv_aset hInv ⟨?_, ?_, ?_, ?_⟩
      · simp [keysND]
      · intro n es h3
        simp [alookup] at h3
      · intro n es v k h3
        simp [alookup] at h3
      · intro k d h3
        simp [alookup] at h3
  · simp [hst] at h

theorem drop_inv {fs fs2 : FS} {t : String} {b : Bool}
    (hInv : Inv fs) (h : drop fs t = .ok (fs2, b)) : Inv fs2 := by
  unfold drop at h
  by_cases hps : plainSeg t = true
  · simp only [hps, Bool.not_true, Bool.false_eq_true, if_false] at h
    cases hft : alookup fs t with
    | some tb =>
      rw [hft] at h
      have h2 : ((aerase fs t, true) : FS × Bool) = (fs2, b) := by injection h
      have h3 : aerase fs t = fs2 := congrArg Prod.fst h2
      rw [← h3]
      intro t2 tb2 hl
      rw [alookup_aerase] at hl
      by_cases he : t2 = t
      · rw [if_pos he] at hl
        exact Option.noConfusion hl
      · rw [if_neg he] at hl
        exact hInv t2 tb2 hl
    | none =>
      rw [hft] at h
      have h2 : ((fs, false) : FS × Bool) = (fs2, b) := by injection h
      have h3 : fs = fs2 := congrArg Prod.fst h2
      rw [← h3]
      exact hInv
  · have hps2 : plainSeg t = false := by simpa using hps
    simp [hps2] at h

theorem applyOp_inv {fs : FS} {op : Op} (hInv : Inv fs) (hwf : opWf op = true) :
    Inv (applyOp fs op) := by
  unfold applyOp
  cases hr : opResult fs op with
  | error e => exact hInv
  | ok f =>
    cases op with
    | create t => exact create_inv hInv hr
    | insert t pk d =>
      have hdw : docWfB d = true := by
        simp only [opWf, Bool.and_eq_true] at hwf
        exact hwf.2
      exact insert_inv hInv hdw hr
    | update t pk d =>
      have hdw : docWfB d = true := by
        simp only [opWf, Bool.and_eq_true] at hwf
        exact hwf.2
      exact update_inv hInv hdw hr
    | upsert t pk d =>
      have hdw : docWfB d = true := by
        simp only [opWf, Bool.and_eq_true] at hwf
        exact hwf.2
      exact upsert_inv hInv hdw hr
    | delete t pk =>
      have hr2 : (delete fs t pk).map Prod.fst = .ok f := hr
      cases hd : delete fs t pk with
      | error e =>
        rw [hd] at hr2
        exact absurd hr2 (by simp [Except.map])
      | ok p =>
        rw [hd] at hr2
        have hf : p.1 = f := by
          have h3 : Except.ok (ε := Err) p.1 = .ok f := hr2
          injection h3
        obtain ⟨f1, b1⟩ := p
        rw [← hf]
        exact delete_inv hInv hd
    | drop t =>
      have hr2 : (drop fs t).map Prod.fst = .ok f := hr
      cases hd : drop fs t with
      | error e =>
        rw [hd] at hr2
        exact absurd hr2 (by simp [Except.map])
      | ok p =>
        rw [hd] at hr2
        have hf : p.1 = f := by
          have h3 : Except.ok (ε := Err) p.1 = .ok f := hr2
          injection h3
        obtain ⟨f1, b1⟩ := p
        rw [← hf]
        exact drop_inv hInv hd
    | createIndex t field =>
      have hw : wfName field = true := by
        simp only [opWf, Bool.and_eq_true] at hwf
        exact hwf.2
      exact create_index_inv hInv hw hr
    | link st spk dt dpk d =>
      have hdw : docWfB (d.getD []) = true := by
        simp only [opWf, Bool.and_eq_true] at hwf
        exact hwf.2
      exact upsert_inv hInv hdw (link_ok hr)

theorem Inv_nil : Inv ([] : FS) := by
  intro t tb h
  simp [alookup] at h

theorem runOps_inv : ∀ (ops : List Op) (fs : FS), Inv fs → opsWf ops = true →
    Inv (runOps fs ops) := by
  intro ops
  induction ops with
  | nil =>
    intro fs h _
    exact h
  | cons op rest ih =>
    intro fs h hwf
    simp only [opsWf, List.all_cons, Bool.and_eq_true] at hwf
    have h2 := ih (applyOp fs op) (applyOp_inv h hwf.1)
      (by simp [opsWf, hwf.2])
    exact h2

/-! Lookups at non-index names pass through `_update_index` untouched. -/

theorem indexApply_nonidx (tb : Table) (pk field v k : String)
    (h : ∀ es, alookup tb k ≠ some (.idx es)) :
    alookup (indexApply tb pk field v) k = alookup tb k := by
  by_cases hk2 : k = "@" ++ field
  · subst hk2
    unfold indexApply
    cases hat : alookup tb ("@" ++ field) with
    | none => exact hat
    | some e =>
      cases e with
      | file c => exact hat
      | idx es => exact absurd hat (h es)
  · exact indexApply_other _ _ hk2

theorem stepApply_nonidx (pk : String) (old new : Option Doc) (tb : Table)
    (dn k : String) (h : ∀ es, alookup tb k ≠ some (.idx es)) :
    alookup (stepApply pk old new tb dn) k = alookup tb k := by
  cases hdn : alookup tb dn with
  | none => rw [stepApply_eq_of_none pk old new tb dn hdn]
  | some e =>
    cases e with
    | file c => rw [stepApply_eq_of_file pk old new tb dn c hdn]
    | idx es =>
      have hkdn : k ≠ dn := by
        intro he
        exact h es (he ▸ hdn)
      have haset : ∀ es2, alookup (aset tb dn (Entry.idx es2)) k = alookup tb k :=
        fun es2 => alookup_aset_ne tb _ hkdn
      have hsetidx : ∀ es2, (∀ es3,
          alookup (aset tb dn (Entry.idx es2)) k ≠ some (.idx es3)) := by
        intro es2 es3
        rw [haset es2]
        exact h es3
      simp only [stepApply, hdn]
      rcases old with _ | o
      · rcases new with _ | nd
        · rfl
        · rcases hnd : alookup nd (stripAts dn) with _ | nv
          · simp only [hnd]
          · simp only [hnd]
            exact indexApply_nonidx tb pk _ nv k h
      · rcases ho : alookup o (stripAts dn) with _ | ov
        · rcases new with _ | nd
          · simp only [ho]
          · rcases hnd : alookup nd (stripAts dn) with _ | nv
            · simp only [ho, hnd]
            · simp only [ho, hnd]
              exact indexApply_nonidx tb pk _ nv k h
        · rcases hov : alookup es ov with _ | k0
          · rcases new with _ | nd
            · simp only [ho, hov]
            · rcases hnd : alookup nd (stripAts dn) with _ | nv
              · simp only [ho, hov, hnd]
              · simp only [ho, hov, hnd]
                exact indexApply_nonidx tb pk _ nv k h
          · by_cases hk0 : k0 = pk
            · rcases new with _ | nd
              · simp only [ho, hov, hk0, eq_self_iff_true, if_true]
                exact haset _
              · rcases hnd : alookup nd (stripAts dn) with _ | nv
                · simp only [ho, hov, hk0, eq_self_iff_true, if_true, hnd]
                  exact haset _
                · simp only [ho, hov, hk0, eq_self_iff_true, if_true, hnd]
                  rw [indexApply_nonidx _ pk _ nv k (hsetidx _)]
                  exact haset _
            · rcases new with _ | nd
              · simp only [ho, hov, if_neg hk0]
              · rcases hnd : alookup nd (stripAts dn) with _ | nv
                · simp only [ho, hov, if_neg hk0, hnd]
                · simp only [ho, hov, if_neg hk0, hnd]
                  exact indexApply_nonidx tb pk _ nv k h

theorem foldl_stepApply_nonidx (pk : String) (old new : Option Doc) :
    ∀ (L : List String) (tb : Table) (k : String),
    (∀ es, alookup tb k ≠ some (.idx es)) →
    alookup (L.foldl (stepApply pk old new) tb) k = alookup tb k := by
  intro L
  induction L with
  | nil =>
    intro tb k _
    rfl
  | cons n L2 ih =>
    intro tb k h
    simp only [List.foldl_cons]
    have hstep := stepApply_nonidx pk old new tb n k h
    rw [ih (stepApply pk old new tb n) k (fun es he => h es (hstep ▸ he)), hstep]

/-! Characterization of `get` against the specification-side `specGet`. -/

theorem specGet_char {fs : FS} {t pk : String} {tb : Table}
    (h : alookup fs t = some tb) :
    specGet fs t pk = (if pk = "" then none
      else
        match alookup tb pk with
        | some (.file (some d)) => some d
        | _ => none) := by
  unfold specGet recordFile
  rw [h]
  show (match (if pk = "" then (none : Option (Option Doc))
      else
        match alookup tb pk with
        | some (.file c) => some c
        | _ => none) with
    | some (some d) => some d
    | _ => none) = _
  by_cases hpk : pk = ""
  · rw [if_pos hpk, if_pos hpk]
  · rw [if_neg hpk, if_neg hpk]
    cases he : alookup tb pk with
    | none => rfl
    | some e =>
      cases e with
      | file c =>
        cases c with
        | none => rfl
        | some d => rfl
      | idx es => rfl

theorem get_eq_specGet (fs : FS) (t pk : String) (h : nameOk t pk = true) :
    get fs t pk = .ok (specGet fs t pk) := by
  unfold get
  simp only [h, Bool.not_true, Bool.false_eq_true, if_false]
  cases hft : alookup fs t with
  | none =>
    have h2 : specGet fs t pk = none := by
      unfold specGet recordFile
      rw [hft]
    rw [h2]
  | some tb =>
    rw [specGet_char hft]

theorem get_error_badName {fs : FS} {t pk : String} {e : Err}
    (h : get fs t pk = .error e) : e = .unsafeName ∧ nameOk t pk = false := by
  unfold get at h
  by_cases hno : nameOk t pk = true
  · simp [hno] at h
  · have hno2 : nameOk t pk = false := by simpa using hno
    simp only [hno2, Bool.not_false, if_true] at h
    have h2 : Err.unsafeName = e := by injection h
    exact ⟨h2.symm, hno2⟩

/-! The synchronization rule of `_update_index`, stated per entry. -/

theorem idxEntry_char {fs : FS} {t : String} {tb : Table} (f v : String)
    (h : alookup fs t = some tb) :
    idxEntry fs t f v = (match alookup tb ("@" ++ f) with
      | some (.idx es) => alookup es v
      | _ => none) := by
  unfold idxEntry
  rw [h]

theorem syncApply_eq {fs : FS} {t : String} {tb : Table} (pk : String)
    (old new : Option Doc) (h : alookup fs t = some tb) :
    syncApply fs t pk old new
      = aset fs t ((globDirs tb).foldl (stepApply pk old new) tb) := by
  unfold syncApply
  rw [h]

theorem syncApply_keep_entry (fs : FS) (t : String) (tb : Table) (pk : String)
    (o : Doc) (new : Option Doc) (f : String) (es : List (String × String))
    (v0 k2 : String)
    (hlt : alookup fs t = some tb) (hnd : keysND tb)
    (hgb : goodTableB tb = true) (hf : f.data.head? ≠ some '@')
    (hat : alookup tb ("@" ++ f) = some (.idx es))
    (ho : alookup o f = some v0) (hesv : alookup es v0 = some k2)
    (hk2 : k2 ≠ pk)
    (hnew : match new with
      | some nd => alookup nd f ≠ some v0
      | none => True) :
    idxEntry (syncApply fs t pk (some o) new) t f v0 = some k2 := by
  have hG := goodTableB_spec hgb
  have hgn : ("@" ++ f) = "@" ++ stripAts ("@" ++ f) := by
    rw [stripAts_append hf]
  have hchar := foldl_stepApply_char pk (some o) new (globDirs tb) tb
    (globDirs_nodup hnd) hG
  rw [syncApply_eq pk (some o) new hlt,
    idxEntry_char f v0 (alookup_aset_self fs t _), hchar ("@" ++ f), hat]
  show (match some (Entry.idx (if ("@" ++ f) ∈ globDirs tb
      then newEs pk (some o) new (stripAts ("@" ++ f)) es else es)) with
    | some (Entry.idx es2) => alookup es2 v0
    | _ => none) = some k2
  rw [if_pos (mem_globDirs hat hgn)]
  have hstrip : stripAts ("@" ++ f) = f := stripAts_append hf
  show alookup (newEs pk (some o) new (stripAts ("@" ++ f)) es) v0 = some k2
  rw [hstrip]
  rcases new with _ | nd
  · simp only [newEs, ho, hesv, if_neg hk2]
  · have hnew2 : alookup nd f ≠ some v0 := hnew
    rcases hnd2 : alookup nd f with _ | nv
    · simp only [newEs, ho, hesv, if_neg hk2, hnd2]
    · have hnv : v0 ≠ nv := by
        intro he
        rw [hnd2, ← he] at hnew2
        exact hnew2 rfl
      simp only [newEs, ho, hesv, if_neg hk2, hnd2]
      rw [alookup_aset_ne _ _ hnv]
      exact hesv

theorem syncApply_remove_entry (fs : FS) (t : String) (tb : Table) (pk : String)
    (o : Doc) (new : Option Doc) (f : String) (es : List (String × String))
    (v0 : String)
    (hlt : alookup fs t = some tb) (hnd : keysND tb)
    (hgb : goodTableB tb = true) (hf : f.data.head? ≠ some '@')
    (hat : alookup tb ("@" ++ f) = some (.idx es))
    (ho : alookup o f = some v0) (hesv : alookup es v0 = some pk)
    (hnew : match new with
      | some nd => alookup nd f ≠ some v0
      | none => True) :
    idxEntry (syncApply fs t pk (some o) new) t f v0 = none := by
  have hG := goodTableB_spec hgb
  have hgn : ("@" ++ f) = "@" ++ stripAts ("@" ++ f) := by
    rw [stripAts_append hf]
  have hchar := foldl_stepApply_char pk (some o) new (globDirs tb) tb
    (globDirs_nodup hnd) hG
  rw [syncApply_eq pk (some o) new hlt,
    idxEntry_char f v0 (alookup_aset_self fs t _), hchar ("@" ++ f), hat]
  show (match some (Entry.idx (if ("@" ++ f) ∈ globDirs tb
      then newEs pk (some o) new (stripAts ("@" ++ f)) es else es)) with
    | some (Entry.idx es2) => alookup es2 v0
    | _ => none) = none
  rw [if_pos (mem_globDirs hat hgn)]
  have hstrip : stripAts ("@" ++ f) = f := stripAts_append hf
  show alookup (newEs pk (some o) new (stripAts ("@" ++ f)) es) v0 = none
  rw [hstrip]
  have herase : alookup (aerase es v0) v0 = none := by
    rw [alookup_aerase, if_pos rfl]
  rcases new with _ | nd
  · simp only [newEs, ho, hesv, if_pos rfl]
    exact herase
  · have hnew2 : alookup nd f ≠ some v0 := hnew
    rcases hnd2 : alookup nd f with _ | nv
    · simp only [newEs, ho, hesv, if_pos rfl, hnd2]
      exact herase
    · have hnv : v0 ≠ nv := by
        intro he
        rw [hnd2, ← he] at hnew2
        exact hnew2 rfl
      simp only [newEs, ho, hesv, if_pos rfl, hnd2]
      rw [alookup_aset_ne _ _ hnv]
      exact herase

/-! Small helpers about unsafe names and error results. -/

theorem strContains_slash_badName {pk : String} (h : strContains pk "/" = true) :
    safeName pk = false := by
  simp [safeName, h]

theorem nameOk_slash {t pk : String} (h : strContains pk "/" = true) :
    nameOk t pk = false := by
  have hne : pk ≠ "" := by
    intro he
    rw [he] at h
    exact absurd h (by decide)
  have hbe : (pk == "") = false := by simpa using hne
  simp [nameOk, strContains_slash_badName h, hbe]

theorem get_badName {fs : FS} {t pk : String} (h : nameOk t pk = false) :
    get fs t pk = .error .unsafeName := by
  unfold get
  simp [h]

theorem insert_badName {fs : FS} {t pk : String} {d : Doc}
    (h : nameOk t pk = false) : insert fs t pk d = .error .unsafeName := by
  unfold insert
  simp [h]

theorem update_badName {fs : FS} {t pk : String} {d : Doc}
    (h : nameOk t pk = false) : update fs t pk d = .error .unsafeName := by
  unfold update
  rw [get_badName h]

theorem upsert_badName {fs : FS} {t pk : String} {d : Doc}
    (h : nameOk t pk = false) : upsert fs t pk d = .error .unsafeName := by
  unfold upsert
  rw [get_badName h]

theorem delete_badName {fs : FS} {t pk : String} (h : nameOk t pk = false) :
    delete fs t pk = .error .unsafeName := by
  unfold delete
  rw [get_badName h]

theorem create_badName {fs : FS} {t : String} (h : safeName t = false) :
    create fs t = .error .unsafeName := by
  unfold create
  simp [h]

theorem applyOp_create_eq (fs : FS) (t : String) : applyOp fs (.create t)
    = (match create fs t with | .ok f => f | .error _ => fs) := by
  have h0 : opResult fs (.create t) = create fs t := rfl
  unfold applyOp
  rw [h0]

theorem applyOp_insert_eq (fs : FS) (t pk : String) (d : Doc) :
    applyOp fs (.insert t pk d)
      = (match insert fs t pk d with | .ok f => f | .error _ => fs) := by
  have h0 : opResult fs (.insert t pk d) = insert fs t pk d := rfl
  unfold applyOp
  rw [h0]

theorem applyOp_update_eq (fs : FS) (t pk : String) (d : Doc) :
    applyOp fs (.update t pk d)
      = (match update fs t pk d with | .ok f => f | .error _ => fs) := by
  have h0 : opResult fs (.update t pk d) = update fs t pk d := rfl
  unfold applyOp
  rw [h0]

theorem applyOp_upsert_eq (fs : FS) (t pk : String) (d : Doc) :
    applyOp fs (.upsert t pk d)
      = (match upsert fs t pk d with | .ok f => f | .error _ => fs) := by
  have h0 : opResult fs (.upsert t pk d) = upsert fs t pk d := rfl
  unfold applyOp
  rw [h0]

theorem applyOp_delete_eq (fs : FS) (t pk : String) :
    applyOp fs (.delete t pk)
      = (match delete fs t pk with | .ok p => p.1 | .error _ => fs) := by
  have h0 : opResult fs (.delete t pk) = (delete fs t pk).map Prod.fst := rfl
  unfold applyOp
  rw [h0]
  cases delete fs t pk with
  | ok p => rfl
  | error e => rfl

/-! No well-formed call raises after a mutation: the only raise site that
follows a filesystem mutation is `_index` (reached from `_update_index`
after the record write, and from `create_index`'s backfill after the
`mkdir`), and under the invariant a well-formed call never reaches it
with a missing directory or an ill-formed value. -/

theorem write_err {fs : FS} {t pk : String} {d : Doc} {e : Err}
    (h : write fs t pk d = .error e) :
    e = .unsafeName ∨ e = .tableNotFound ∨ e = .escapesModel := by
  unfold write at h
  by_cases hst : safeName t = true
  · simp only [hst, Bool.not_true, Bool.false_eq_true, if_false] at h
    cases hft : alookup fs t with
    | none =>
      rw [hft] at h
      right; left
      have h2 : Err.tableNotFound = e := by injection h
      exact h2.symm
    | some tb =>
      rw [hft] at h
      by_cases hno : nameOk t pk = true
      · simp only [hno, Bool.not_true, Bool.false_eq_true, if_false] at h
        by_cases hne : pk = ""
        · rw [if_pos hne] at h
          right; right
          have h2 : Err.escapesModel = e := by injection h
          exact h2.symm
        · rw [if_neg hne] at h
          exact absurd h (by simp)
      · have hno2 : nameOk t pk = false := by simpa using hno
        simp only [hno2, Bool.not_false, if_true] at h
        left
        have h2 : Err.unsafeName = e := by injection h
        exact h2.symm
  · have hst2 : safeName t = false := by simpa using hst
    simp only [hst2, Bool.not_false, if_true] at h
    left
    have h2 : Err.unsafeName = e := by injection h
    exact h2.symm

theorem create_err {fs : FS} {t : String} {e : Err}
    (h : create fs t = .error e) : e = .unsafeName := by
  unfold create at h
  by_cases hst : safeName t = true
  · simp only [hst, Bool.not_true, Bool.false_eq_true, if_false] at h
    cases hft : alookup fs t with
    | none =>
      rw [hft] at h
      exact absurd h (by simp)
    | some tb =>
      rw [hft] at h
      exact absurd h (by simp)
  · have hst2 : safeName t = false := by simpa using hst
    simp only [hst2, Bool.not_false, if_true] at h
    have h2 : Err.unsafeName = e := by injection h
    exact h2.symm

theorem drop_err {fs : FS} {t : String} {e : Err}
    (h : drop fs t = .error e) : e = .escapesModel ∧ plainSeg t = false := by
  unfold drop at h
  by_cases hps : plainSeg t = true
  · simp only [hps, Bool.not_true, Bool.false_eq_true, if_false] at h
    cases hft : alookup fs t with
    | some tb =>
      rw [hft] at h
      exact absurd h (by simp)
    | none =>
      rw [hft] at h
      exact absurd h (by simp)
  · have hps2 : plainSeg t = false := by simpa using hps
    simp only [hps2, Bool.not_false, if_true] at h
    have h2 : Err.escapesModel = e := by injection h
    exact ⟨h2.symm, hps2⟩

theorem docWfB_nd_plain {d : Doc} (hdp : docPlainB d = true) :
    ∀ nd, (some d : Option Doc) = some nd → docPlainB nd = true := by
  intro nd hnd
  have h2 : d = nd := by injection hnd
  rw [← h2]
  exact hdp

theorem insert_no_late {fs : FS} {t pk : String} {d : Doc}
    (hInv : Inv fs) (hdp : docPlainB d = true) {e : Err}
    (h : insert fs t pk d = .error e) :
    e = .unsafeName ∨ e = .tableNotFound ∨ e = .alreadyExists := by
  unfold insert at h
  by_cases hno : nameOk t pk = true
  · by_cases hte : targetExists fs t pk = true
    · simp only [hno, hte, Bool.not_true, Bool.false_eq_true, if_false,
        if_true] at h
      right; right
      have h2 : Err.alreadyExists = e := by injection h
      exact h2.symm
    · have hte2 : targetExists fs t pk = false := by simpa using hte
      simp only [hno, hte2, Bool.not_true, Bool.false_eq_true, if_false] at h
      cases hw : write fs t pk d with
      | error e2 =>
        rw [hw] at h
        have h2 : e2 = e := by
          have h3 : Except.error (α := FS) e2 = .error e := h
          injection h3
        cases hft : alookup fs t with
        | none =>
          have hw2 : write fs t pk d = .error e2 := hw
          unfold write at hw2
          by_cases hst : safeName t = true
          · simp only [hst, Bool.not_true, Bool.false_eq_true, if_false,
              hft] at hw2
            right; left
            rw [← h2]
            have h4 : Err.tableNotFound = e2 := by injection hw2
            exact h4.symm
          · have hst2 : safeName t = false := by simpa using hst
            simp only [hst2, Bool.not_false, if_true] at hw2
            left
            rw [← h2]
            have h4 : Err.unsafeName = e2 := by injection hw2
            exact h4.symm
        | some tb =>
          have hne : pk ≠ "" := (targetExists_false hte2 hft).1
          rcases write_err_ne hne hw with h4 | h4
          · left
            rw [← h2, h4]
          · right; left
            rw [← h2, h4]
      | ok fs1 =>
        rw [hw] at h
        obtain ⟨hno2, hne, tb, hft, hfs1⟩ := write_ok_eq hw
        have h4 : updateIndex fs1 t pk none (some d) = .error e := h
        rw [hfs1] at h4
        have hG : GoodTable (aset tb pk (.file (some d))) :=
          goodTable_aset_file ((hInv t tb hft).2.1) pk _
        rw [updateIndex_wf_ok pk none (some d) (alookup_aset_self fs t _) hG
          (docWfB_nd_plain hdp)] at h4
        exact absurd h4 (by simp)
  · have hno2 : nameOk t pk = false := by simpa using hno
    simp only [hno2, Bool.not_false, if_true] at h
    left
    have h2 : Err.unsafeName = e := by injection h
    exact h2.symm

theorem update_no_late {fs : FS} {t pk : String} {d : Doc}
    (hInv : Inv fs) (hdp : docPlainB d = true) {e : Err}
    (h : update fs t pk d = .error e) :
    e = .unsafeName ∨ e = .recordNotFound := by
  unfold update at h
  cases hg : get fs t pk with
  | error e2 =>
    rw [hg] at h
    have h2 : e2 = e := by
      have h3 : Except.error (α := FS) e2 = .error e := h
      injection h3
    left
    rw [← h2]
    exact (get_error_badName hg).1
  | ok cur =>
    rw [hg] at h
    by_cases htr : docTruthy cur = true
    · simp only [htr, Bool.not_true, Bool.false_eq_true, if_false] at h
      obtain ⟨c, hc, hcne⟩ := docTruthy_true htr
      subst hc
      obtain ⟨hno, hne, tb, hft, hpk⟩ := get_ok_some hg
      rw [write_ok d hno hne hft] at h
      have h4 : updateIndex (aset fs t (aset tb pk (.file (some d)))) t pk
          (some c) (some d) = .error e := h
      have hG : GoodTable (aset tb pk (.file (some d))) :=
        goodTable_aset_file ((hInv t tb hft).2.1) pk _
      rw [updateIndex_wf_ok pk (some c) (some d) (alookup_aset_self fs t _) hG
        (docWfB_nd_plain hdp)] at h4
      exact absurd h4 (by simp)
    · have htr2 : docTruthy cur = false := by simpa using htr
      simp only [htr2, Bool.not_false, if_true] at h
      right
      have h2 : Err.recordNotFound = e := by injection h
      exact h2.symm

theorem upsert_no_late {fs : FS} {t pk : String} {d : Doc}
    (hInv : Inv fs) (hne : pk ≠ "") (hdp : docPlainB d = true) {e : Err}
    (h : upsert fs t pk d = .error e) :
    e = .unsafeName ∨ e = .tableNotFound := by
  unfold upsert at h
  cases hg : get fs t pk with
  | error e2 =>
    rw [hg] at h
    have h2 : e2 = e := by
      have h3 : Except.error (α := FS) e2 = .error e := h
      injection h3
    left
    rw [← h2]
    exact (get_error_badName hg).1
  | ok cur =>
    rw [hg] at h
    cases hw : write fs t pk d with
    | error e2 =>
      rw [hw] at h
      have h2 : e2 = e := by
        have h3 : Except.error (α := FS) e2 = .error e := h
        injection h3
      rw [← h2]
      exact write_err_ne hne hw
    | ok fs1 =>
      rw [hw] at h
      obtain ⟨hno2, hne2, tb, hft, hfs1⟩ := write_ok_eq hw
      have h4 : updateIndex fs1 t pk cur (some d) = .error e := h
      rw [hfs1] at h4
      have hG : GoodTable (aset tb pk (.file (some d))) :=
        goodTable_aset_file ((hInv t tb hft).2.1) pk _
      rw [updateIndex_wf_ok pk cur (some d) (alookup_aset_self fs t _) hG
        (docWfB_nd_plain hdp)] at h4
      exact absurd h4 (by simp)

theorem delete_err {fs : FS} {t pk : String} {e : Err}
    (h : delete fs t pk = .error e) : e = .unsafeName := by
  unfold delete at h
  cases hg : get fs t pk with
  | error e2 =>
    rw [hg] at h
    have h2 : e2 = e := by
      have h3 : Except.error (α := FS × Bool) e2 = .error e := h
      injection h3
    rw [← h2]
    exact (get_error_badName hg).1
  | ok cur =>
    rw [hg] at h
    by_cases htr : docTruthy cur = true
    · simp only [htr, Bool.not_true, Bool.false_eq_true, if_false] at h
      by_cases hte : targetExists fs t pk = true
      · rw [if_pos hte] at h
        rw [updateIndex_none_ok (eraseRec fs t pk) t pk cur] at h
        exact absurd h (by simp)
      · rw [if_neg hte] at h
        exact absurd h (by simp)
    · have htr2 : docTruthy cur = false := by simpa using htr
      simp only [htr2, Bool.not_false, if_true] at h
      exact absurd h (by simp)

theorem createIndex_no_late {fs : FS} {t field : String}
    (hInv : Inv fs) {e : Err}
    (h : create_index fs t field = .error e) :
    e = .unsafeName ∨ e = .tableNotFound ∨ e = .alreadyExists := by
  unfold create_index at h
  by_cases hst : safeName t = true
  · simp only [hst, Bool.not_true, Bool.false_eq_true, if_false] at h
    by_cases hsf : safeName ("@" ++ field) = true
    · simp only [hsf, Bool.not_true, Bool.false_eq_true, if_false] at h
      cases hft : alookup fs t with
      | none =>
        rw [hft] at h
        have h2 : Except.error (α := FS) Err.tableNotFound = .error e := h
        right; left
        have h3 : Err.tableNotFound = e := by injection h2
        exact h3.symm
      | some tb =>
        rw [hft] at h
        have h1 : (match alookup tb ("@" ++ field) with
            | some (Entry.file c) => Except.error (α := FS) Err.alreadyExists
            | some (Entry.idx es) =>
              match backfill field (scanTable tb "*") tb with
              | .ok tb2 => .ok (aset fs t tb2)
              | .error e => .error e
            | none =>
              match backfill field (scanTable tb "*")
                  (aset tb ("@" ++ field) (Entry.idx [])) with
              | .ok tb2 => .ok (aset fs t tb2)
              | .error e => .error e) = Except.error e := h
        have hplain : ∀ pr ∈ scanTable tb "*", ∀ v,
            alookup pr.2 field = some v → plainSeg v = true := by
          intro pr hpr v hv
          have hrec : alookup tb pr.1 = some (.file (some pr.2)) := by
            obtain ⟨n, d2⟩ := pr
            exact scanTable_mem (hInv t tb hft).1 hpr
          have hdw : docWfB pr.2 = true := (hInv t tb hft).2.2.2 pr.1 pr.2 hrec
          exact wfVal_plain (alookup_of_all hdw hv)
        cases hat : alookup tb ("@" ++ field) with
        | none =>
          rw [hat] at h1
          rw [backfill_wf_ok hsf (scanTable tb "*")
            (aset tb ("@" ++ field) (.idx [])) []
            (alookup_aset_self tb _ _) hplain] at h1
          exact absurd h1 (by simp)
        | some e2 =>
          cases e2 with
          | file c =>
            rw [hat] at h1
            right; right
            have h3 : Err.alreadyExists = e := by injection h1
            exact h3.symm
          | idx es =>
            rw [hat] at h1
            rw [backfill_wf_ok hsf (scanTable tb "*") tb es hat hplain] at h1
            exact absurd h1 (by simp)
    · have hsf2 : safeName ("@" ++ field) = false := by simpa using hsf
      simp only [hsf2, Bool.not_false, if_true] at h
      left
      have h3 : Err.unsafeName = e := by injection h
      exact h3.symm
  · have hst2 : safeName t = false := by simpa using hst
    simp only [hst2, Bool.not_false, if_true] at h
    left
    have h3 : Err.unsafeName = e := by injection h
    exact h3.symm

theorem link_no_late {fs : FS} {st spk dt dpk : String} {d : Option Doc}
    (hInv : Inv fs) (hne : spk ++ ":" ++ dpk ≠ "")
    (hdp : docPlainB (d.getD []) = true) {e : Err}
    (h : link fs st spk dt dpk d = .error e) :
    e = .unsafeName ∨ e = .recordNotFound ∨ e = .tableNotFound := by
  unfold link at h
  by_cases h1 : nameOk st spk = true
  · by_cases h2 : targetExists fs st spk = true
    · by_cases h3 : nameOk dt dpk = true
      · by_cases h4 : targetExists fs dt dpk = true
        · simp only [h1, h2, h3, h4, Bool.not_true, Bool.false_eq_true,
            if_false] at h
          rcases upsert_no_late hInv hne hdp h with h5 | h5
          · exact Or.inl h5
          · exact Or.inr (Or.inr h5)
        · have h42 : targetExists fs dt dpk = false := by simpa using h4
          simp only [h1, h2, h3, h42, Bool.not_true, Bool.not_false,
            Bool.false_eq_true, if_false, if_true] at h
          right; left
          have h5 : Err.recordNotFound = e := by injection h
          exact h5.symm
      · have h32 : nameOk dt dpk = false := by simpa using h3
        simp only [h1, h2, h32, Bool.not_true, Bool.not_false,
          Bool.false_eq_true, if_false, if_true] at h
        left
        have h5 : Err.unsafeName = e := by injection h
        exact h5.symm
    · have h22 : targetExists fs st spk = false := by simpa using h2
      simp only [h1, h22, Bool.not_true, Bool.not_false,
        Bool.false_eq_true, if_false, if_true] at h
      right; left
      have h5 : Err.recordNotFound = e := by injection h
      exact h5.symm
  · have h12 : nameOk st spk = false := by simpa using h1
    simp only [h12, Bool.not_false, if_true] at h
    left
    have h5 : Err.unsafeName = e := by injection h
    exact h5.symm

theorem opResult_no_late_error {fs : FS} {op : Op} (hInv : Inv fs)
    (hwf : opWf op = true) {e : Err} (h : opResult fs op = .error e) :
    e ≠ .indexError ∧ e ≠ .escapesModel := by
  cases op with
  | create t =>
    have h2 : create fs t = .error e := h
    rw [create_err h2]
    exact ⟨by decide, by decide⟩
  | insert t pk d =>
    have hdw : docWfB d = true := by
      simp only [opWf, Bool.and_eq_true] at hwf
      exact hwf.2
    have h2 : insert fs t pk d = .error e := h
    rcases insert_no_late hInv (docWfB_plain hdw) h2 with h5 | h5 | h5 <;>
      (rw [h5]; exact ⟨by decide, by decide⟩)
  | update t pk d =>
    have hdw : docWfB d = true := by
      simp only [opWf, Bool.and_eq_true] at hwf
      exact hwf.2
    have h2 : update fs t pk d = .error e := h
    rcases update_no_late hInv (docWfB_plain hdw) h2 with h5 | h5 <;>
      (rw [h5]; exact ⟨by decide, by decide⟩)
  | upsert t pk d =>
    simp only [opWf, Bool.and_eq_true] at hwf
    have h2 : upsert fs t pk d = .error e := h
    rcases upsert_no_late hInv (wfName_ne_empty hwf.1.2) (docWfB_plain hwf.2)
        h2 with h5 | h5 <;>
      (rw [h5]; exact ⟨by decide, by decide⟩)
  | delete t pk =>
    have h2 : (delete fs t pk).map Prod.fst = .error e := h
    cases hd : delete fs t pk with
    | error e2 =>
      rw [hd] at h2
      have h3 : e2 = e := by
        have h4 : Except.error (α := FS) e2 = .error e := h2
        injection h4
      rw [← h3, delete_err hd]
      exact ⟨by decide, by decide⟩
    | ok p =>
      rw [hd] at h2
      exact absurd h2 (by simp [Except.map])
  | drop t =>
    have h2 : (drop fs t).map Prod.fst = .error e := h
    cases hd : drop fs t with
    | error e2 =>
      rw [hd] at h2
      obtain ⟨h5, h6⟩ := drop_err hd
      have hps : plainSeg t = true := by
        simpa [opWf] using hwf
      rw [hps] at h6
      exact absurd h6 (by decide)
    | ok p =>
      rw [hd] at h2
      exact absurd h2 (by simp [Except.map])
  | createIndex t field =>
    have h2 : create_index fs t field = .error e := h
    rcases createIndex_no_late hInv h2 with h5 | h5 | h5 <;>
      (rw [h5]; exact ⟨by decide, by decide⟩)
  | link st spk dt dpk d =>
    simp only [opWf, Bool.and_eq_true] at hwf
    have h2 : link fs st spk dt dpk d = .error e := h
    rcases link_no_late hInv (wfName_ne_empty hwf.1.2) (docWfB_plain hwf.2)
        h2 with h5 | h5 | h5 <;>
      (rw [h5]; exact ⟨by decide, by decide⟩)

/-! The claim theorems. -/

/-- Claim C1, counterexample: `find` joins its `value` argument into the
path `root/table/@field/value` without `_safe_name` validation, so an
engine operation given a value containing `/` does not fail with
UnsafeName — refuting the claim that every key/field/value string is
validated before it is joined into a filesystem path. -/
theorem C1_counterexample :
    find ([] : FS) "t" "f" "x/y" = .ok none ∧
      strContains "x/y" "/" = true ∧ safeName "x/y" = false := by
  refine ⟨rfl, by decide, by decide⟩

/-- Claim C1 (amended): the operations that resolve names through
`_target_f` validate them before the path is built — an unsafe table
name makes `create`, `scan`, `create_index` and every record operation
fail with UnsafeName and mutate nothing, and an unsafe non-empty key
does the same for `insert`/`get`/`update`/`upsert`/`delete` — but the
validation is not universal: `lspk` and `drop` join the table name into
a path with *no* validation and can never fail with UnsafeName (the
real `drop("../x")` removes a tree outside the root), and `find` joins
its `value` argument unvalidated and never rejects it with UnsafeName. -/
theorem C1_key_validation :
    (∀ (fs : FS) (t : String), safeName t = false →
      create fs t = .error .unsafeName ∧
      (∀ pat, scan fs t pat = .error .unsafeName) ∧
      (∀ f, create_index fs t f = .error .unsafeName) ∧
      applyOp fs (.create t) = fs) ∧
    (∀ (fs : FS) (t pk : String) (d : Doc), nameOk t pk = false →
      insert fs t pk d = .error .unsafeName ∧
      update fs t pk d = .error .unsafeName ∧
      upsert fs t pk d = .error .unsafeName ∧
      delete fs t pk = .error .unsafeName ∧
      get fs t pk = .error .unsafeName ∧
      applyOp fs (.insert t pk d) = fs ∧
      applyOp fs (.update t pk d) = fs ∧
      applyOp fs (.upsert t pk d) = fs ∧
      applyOp fs (.delete t pk) = fs) ∧
    (∀ (fs : FS) (t : String), lspk fs t ≠ .error .unsafeName) ∧
    (∀ (fs : FS) (t : String), drop fs t ≠ .error .unsafeName) ∧
    (∀ (fs : FS) (v : String), find fs "t" "f" v ≠ .error .unsafeName) := by
  refine ⟨?_, ?_, ?_, ?_, ?_⟩
  · intro fs t hst
    have hc : create fs t = .error .unsafeName := create_badName hst
    refine ⟨hc, ?_, ?_, ?_⟩
    · intro pat
      unfold scan
      simp [hst]
    · intro f
      unfold create_index
      simp [hst]
    · rw [applyOp_create_eq, hc]
  · intro fs t pk d hno
    have h1 := @insert_badName fs t pk d hno
    have h2 := @update_badName fs t pk d hno
    have h3 := @upsert_badName fs t pk d hno
    have h4 := @delete_badName fs t pk hno
    refine ⟨h1, h2, h3, h4, get_badName hno, ?_, ?_, ?_, ?_⟩
    · rw [applyOp_insert_eq, h1]
    · rw [applyOp_update_eq, h2]
    · rw [applyOp_upsert_eq, h3]
    · rw [applyOp_delete_eq, h4]
  · intro fs t hc
    unfold lspk at hc
    cases hft : alookup fs t with
    | none =>
      rw [hft] at hc
      have h2 : Except.error (α := List String) Err.tableNotFound
          = .error .unsafeName := hc
      have h3 : Err.tableNotFound = Err.unsafeName := by injection h2
      exact absurd h3 (by decide)
    | some tb =>
      rw [hft] at hc
      exact absurd hc (by simp)
  · intro fs t hc
    rcases drop_err hc with ⟨h5, _⟩
    exact absurd h5 (by decide)
  · intro fs v
    unfold find
    rw [if_neg (by decide), if_neg (by decide)]
    simp

/-- Witness for C1: the claim's concrete unsafe inputs are rejected with
UnsafeName. -/
theorem C1_witness :
    create ([] : FS) "../etc" = .error .unsafeName ∧
      insert ([] : FS) "t" "../x" [] = .error .unsafeName ∧
      get ([] : FS) "t" "a/b" = .error .unsafeName :=
  ⟨(C1_key_validation.1 [] "../etc" (by decide)).1,
   (C1_key_validation.2.1 [] "t" "../x" [] (by decide)).1,
   (C1_key_validation.2.1 [] "t" "a/b" [] (by decide)).2.2.2.2.1⟩

/-- Claim C2, counterexample: after the single-writer sequence
create; create_index f; insert r1 {f:x}; insert r2 {f:x}; delete r2,
no index entry `@f/x` exists although record `r1` still has `f = x` as
last written — refuting the claimed biconditional. -/
theorem C2_counterexample :
    idxEntry (runOps [] c2ops) "t" "f" "x" = none ∧
      get (runOps [] c2ops) "t" "r1" = .ok (some [("f", "x")]) := by
  refine ⟨by decide, by decide⟩

/-- Claim C2 (amended): after any single-writer sequence of well-formed
engine operations from an empty root, an index entry `@field/<value>`
exists *only if* some record currently present in the table has
`field == value` as last written (the entry names that record); the
converse can fail once two records share a value.  Moreover no
well-formed call on such a store raises after a mutation (the modelled
`indexError` of `_index` — the one raise site that follows the record
write — and the model-boundary `escapesModel` never occur), so the
error-free transition system of `applyOp` is the program's.  The
synchronization rule removes the old-value entry only when that entry
still points at the mutated record's key: when `_update_index` completes,
an entry pointing at a different key survives, and an entry pointing at
the mutated key is removed. -/
theorem C2_index_coherence :
    (∀ ops : List Op, opsWf ops = true → IdxCoherent (runOps [] ops)) ∧
    (∀ (ops : List Op) (op : Op) (e : Err), opsWf ops = true →
      opWf op = true → opResult (runOps [] ops) op = .error e →
      e ≠ .indexError ∧ e ≠ .escapesModel) ∧
    (∀ (fs : FS) (t : String) (tb : Table) (pk : String) (o : Doc)
        (new : Option Doc) (f : String) (es : List (String × String))
        (v0 k2 : String),
      alookup fs t = some tb → keysND tb → goodTableB tb = true →
      f.data.head? ≠ some '@' →
      alookup tb ("@" ++ f) = some (.idx es) →
      alookup o f = some v0 → wfVal v0 = true →
      alookup es v0 = some k2 → k2 ≠ pk →
      (match new with
        | some nd => alookup nd f ≠ some v0
        | none => True) →
      ∀ fs2, updateIndex fs t pk (some o) new = .ok fs2 →
        idxEntry fs2 t f v0 = some k2) ∧
    (∀ (fs : FS) (t : String) (tb : Table) (pk : String) (o : Doc)
        (new : Option Doc) (f : String) (es : List (String × String))
        (v0 : String),
      alookup fs t = some tb → keysND tb → goodTableB tb = true →
      f.data.head? ≠ some '@' →
      alookup tb ("@" ++ f) = some (.idx es) →
      alookup o f = some v0 → wfVal v0 = true →
      alookup es v0 = some pk →
      (match new with
        | some nd => alookup nd f ≠ some v0
        | none => True) →
      ∀ fs2, updateIndex fs t pk (some o) new = .ok fs2 →
        idxEntry fs2 t f v0 = none) := by
  refine ⟨?_, ?_, ?_, ?_⟩
  · intro ops h t tb h2
    exact (runOps_inv ops [] Inv_nil h t tb h2).2.2.1
  · intro ops op e hops hop h
    exact opResult_no_late_error (runOps_inv ops [] Inv_nil hops) hop h
  · intro fs t tb pk o new f es v0 k2 hlt hnd hgb hf hat ho hwv hesv hk2 hnew
      fs2 hok
    rw [updateIndex_ok_eq hok]
    exact syncApply_keep_entry fs t tb pk o new f es v0 k2 hlt hnd hgb hf hat
      ho hesv hk2 hnew
  · intro fs t tb pk o new f es v0 hlt hnd hgb hf hat ho hwv hesv hnew fs2 hok
    rw [updateIndex_ok_eq hok]
    exact syncApply_remove_entry fs t tb pk o new f es v0 hlt hnd hgb hf hat
      ho hesv hnew

/-- Witness for C2: the coherence invariant holds for the concrete scenario
sequence, and on the concrete intermediate state the sync rule keeps the
`@f/x -> r2` entry when `r1` is mutated. -/
theorem C2_witness :
    IdxCoherent (runOps [] c2ops) ∧
      idxEntry (syncApply c2mid "t" "r1" (some [("f", "x")]) none)
        "t" "f" "x" = some "r2" := by
  refine ⟨C2_index_coherence.1 c2ops (by decide), ?_⟩
  exact C2_index_coherence.2.2.1 c2mid "t" c2tb "r1" [("f", "x")] none "f"
    [("x", "r2")] "x" "r2" (by decide) (by decide) (by decide) (by decide)
    (by decide) (by decide) (by decide) (by decide) (by decide) trivial
    (syncApply c2mid "t" "r1" (some [("f", "x")]) none)
    (updateIndex_none_ok c2mid "t" "r1" (some [("f", "x")]))

/-- Claim C3, counterexample: a record holding the empty document `{}`
is present on disk (`recordFile` sees a parsing record file), yet
`delete` returns `False` and removes nothing — Python's `if not
current:` treats the falsy `{}` like an absent record — refuting
"otherwise removes the record file ... and returns true". -/
theorem C3_counterexample :
    recordFile c3fs "t" "r" = some (some []) ∧
      get c3fs "t" "r" = .ok (some []) ∧
      delete c3fs "t" "r" = .ok (c3fs, false) := by
  refine ⟨by decide, by decide, by decide⟩

/-- Claim C3 (amended): `delete` returns `false` and leaves the store
unchanged whenever `if not current` holds — when `get` sees no record
*or* the stored document is the falsy empty `{}` (so an existing empty
record is never removed) — and when `get` yields a non-empty
(well-formed) document it removes the record file, synchronizes the
indexes treating the new state as absent (this direction of
`_update_index` never raises), and returns `true`; an immediate second
delete then returns `false`. -/
theorem C3_delete :
    ∀ (fs : FS) (t pk : String),
      (∀ cur, get fs t pk = .ok cur → docTruthy cur = false →
        delete fs t pk = .ok (fs, false)) ∧
      (∀ d, get fs t pk = .ok (some d) → d ≠ [] → docWfB d = true →
        ∃ fs2, delete fs t pk = .ok (fs2, true) ∧
          fs2 = syncApply (eraseRec fs t pk) t pk (some d) none ∧
          get fs2 t pk = .ok none ∧
          delete fs2 t pk = .ok (fs2, false)) := by
  intro fs t pk
  have hfalse : ∀ (fsx : FS) cur, get fsx t pk = .ok cur →
      docTruthy cur = false → delete fsx t pk = .ok (fsx, false) := by
    intro fsx cur hg htr
    unfold delete
    rw [hg]
    have h1 : (if (!docTruthy cur) = true
        then Except.ok (ε := Err) ((fsx, false) : FS × Bool)
        else if targetExists fsx t pk = true then
          match updateIndex (eraseRec fsx t pk) t pk cur none with
          | .ok fs2 => .ok (fs2, true)
          | .error e => .error e
        else .ok (fsx, false))
        = Except.ok (ε := Err) ((fsx, false) : FS × Bool) := by
      rw [htr]
      rfl
    exact h1
  refine ⟨hfalse fs, ?_⟩
  intro d hg hdne hdw
  obtain ⟨hno, hne, tb, hft, hpk⟩ := get_ok_some hg
  have htr : docTruthy (some d) = true := docTruthy_some hdne
  have hte : targetExists fs t pk = true := by
    unfold targetExists
    rw [hft]
    show (if pk = "" then true else (alookup tb pk).isSome) = true
    rw [if_neg hne, hpk]
    rfl
  have hdel : delete fs t pk
      = .ok (syncApply (eraseRec fs t pk) t pk (some d) none, true) := by
    unfold delete
    rw [hg]
    have h1 : (if (!docTruthy (some d)) = true
        then Except.ok (ε := Err) ((fs, false) : FS × Bool)
        else if targetExists fs t pk = true then
          match updateIndex (eraseRec fs t pk) t pk (some d) none with
          | .ok fs2 => .ok (fs2, true)
          | .error e => .error e
        else .ok (fs, false))
        = .ok (syncApply (eraseRec fs t pk) t pk (some d) none, true) := by
      rw [htr, if_pos hte, updateIndex_none_ok (eraseRec fs t pk) t pk (some d)]
      rfl
    exact h1
  refine ⟨syncApply (eraseRec fs t pk) t pk (some d) none, hdel, rfl, ?_, ?_⟩
  · have her : eraseRec fs t pk = aset fs t (aerase tb pk) := by
      unfold eraseRec
      rw [hft]
    have hupd : syncApply (eraseRec fs t pk) t pk (some d) none
        = aset (aset fs t (aerase tb pk)) t
          ((globDirs (aerase tb pk)).foldl (stepApply pk (some d) none)
            (aerase tb pk)) := by
      rw [her]
      exact syncApply_eq pk (some d) none (alookup_aset_self fs t _)
    have hnonidx : ∀ es, alookup (aerase tb pk) pk ≠ some (.idx es) := by
      intro es he
      rw [alookup_aerase, if_pos rfl] at he
      exact Option.noConfusion he
    have hlookpk : alookup ((globDirs (aerase tb pk)).foldl
        (stepApply pk (some d) none) (aerase tb pk)) pk = none := by
      rw [foldl_stepApply_nonidx pk (some d) none (globDirs (aerase tb pk))
        (aerase tb pk) pk hnonidx]
      rw [alookup_aerase, if_pos rfl]
    rw [hupd, get_eq_specGet _ _ _ hno,
      specGet_char (alookup_aset_self (aset fs t (aerase tb pk)) t _)]
    rw [if_neg hne, hlookpk]
  · have hget2 : get (syncApply (eraseRec fs t pk) t pk (some d) none)
        t pk = .ok none := by
      have her : eraseRec fs t pk = aset fs t (aerase tb pk) := by
        unfold eraseRec
        rw [hft]
      have hupd : syncApply (eraseRec fs t pk) t pk (some d) none
          = aset (aset fs t (aerase tb pk)) t
            ((globDirs (aerase tb pk)).foldl (stepApply pk (some d) none)
              (aerase tb pk)) := by
        rw [her]
        exact syncApply_eq pk (some d) none (alookup_aset_self fs t _)
      have hnonidx : ∀ es, alookup (aerase tb pk) pk ≠ some (.idx es) := by
        intro es he
        rw [alookup_aerase, if_pos rfl] at he
        exact Option.noConfusion he
      have hlookpk : alookup ((globDirs (aerase tb pk)).foldl
          (stepApply pk (some d) none) (aerase tb pk)) pk = none := by
        rw [foldl_stepApply_nonidx pk (some d) none (globDirs (aerase tb pk))
          (aerase tb pk) pk hnonidx]
        rw [alookup_aerase, if_pos rfl]
      rw [hupd, get_eq_specGet _ _ _ hno,
        specGet_char (alookup_aset_self (aset fs t (aerase tb pk)) t _)]
      rw [if_neg hne, hlookpk]
    exact hfalse _ none hget2 rfl

/-- Witness for C3: deleting the one (non-empty) record of a concrete
store succeeds and a second delete returns false. -/
theorem C3_witness :
    ∃ fs2, delete cSt1 "t" "k" = .ok (fs2, true) ∧
      fs2 = syncApply (eraseRec cSt1 "t" "k") "t" "k"
        (some [("a", "b")]) none ∧
      get fs2 "t" "k" = .ok none ∧
      delete fs2 "t" "k" = .ok (fs2, false) :=
  (C3_delete cSt1 "t" "k").2 [("a", "b")] (by decide) (by decide) (by decide)

/-- Claim C4, counterexample: a record holding the empty document `{}` is
present (`get` parses it), yet `update` fails with RecordNotFound —
refuting "fails ... exactly when no record currently exists". -/
theorem C4_counterexample :
    get c4fs "t" "r" = .ok (some []) ∧
      update c4fs "t" "r" [("a", "b")] = .error .recordNotFound := by
  refine ⟨by decide, by decide⟩

/-- Claim C4 (amended): `update` fails with RecordNotFound exactly when
`if not current` holds — when `get` sees no record *or* the stored
document is the falsy empty `{}`, so the failure does not coincide with
absence — and in that failing case the store is unchanged; when `get`
yields a non-empty document and the new document's values are
well-formed entry names over a table whose index directories are
well-formed, it writes the new document and synchronizes the indexes
over the old-to-new transition (with ill-formed values or a stray
multi-`@` directory the indexing raises *after* the record file is
written, which the error cases of the model record). -/
theorem C4_update :
    ∀ (fs : FS) (t pk : String) (d : Doc),
      (update fs t pk d = .error .recordNotFound ↔
        ∃ cur, get fs t pk = .ok cur ∧ docTruthy cur = false) ∧
      (∀ cur, get fs t pk = .ok cur → docTruthy cur = false →
        applyOp fs (.update t pk d) = fs) ∧
      (∀ c, get fs t pk = .ok (some c) → c ≠ [] → docWfB c = true →
        docWfB d = true →
        ∀ tb, alookup fs t = some tb → goodTableB tb = true →
          update fs t pk d = .ok (syncApply
            (aset fs t (aset tb pk (.file (some d)))) t pk
            (some c) (some d))) := by
  intro fs t pk d
  have hfail : ∀ cur, get fs t pk = .ok cur → docTruthy cur = false →
      update fs t pk d = .error .recordNotFound := by
    intro cur hg htr
    unfold update
    rw [hg]
    have h1 : (if (!docTruthy cur) = true
        then Except.error (α := FS) Err.recordNotFound
        else match write fs t pk d with
          | .error e => .error e
          | .ok fs1 => updateIndex fs1 t pk cur (some d))
        = Except.error (α := FS) Err.recordNotFound := by
      rw [htr]
      rfl
    exact h1
  refine ⟨⟨?_, ?_⟩, ?_, ?_⟩
  · intro h
    cases hg : get fs t pk with
    | error e =>
      have he := (get_error_badName hg).1
      unfold update at h
      rw [hg] at h
      have h2 : e = .recordNotFound := by
        have h3 : Except.error (α := FS) e = .error .recordNotFound := h
        injection h3
      rw [he] at h2
      exact absurd h2 (by decide)
    | ok cur =>
      by_cases htr : docTruthy cur = true
      · obtain ⟨c, hc, hcne⟩ := docTruthy_true htr
        subst hc
        obtain ⟨hno, hne, tb, hft, hpk⟩ := get_ok_some hg
        unfold update at h
        rw [hg] at h
        have h1 : (if (!docTruthy (some c)) = true
            then Except.error (α := FS) Err.recordNotFound
            else match write fs t pk d with
              | .error e => .error e
              | .ok fs1 => updateIndex fs1 t pk (some c) (some d))
            = .error .recordNotFound := h
        rw [htr] at h1
        have h2 : (match write fs t pk d with
            | .error e => Except.error (α := FS) e
            | .ok fs1 => updateIndex fs1 t pk (some c) (some d))
            = .error .recordNotFound := h1
        rw [write_ok d hno hne hft] at h2
        have h5 : updateIndex (aset fs t (aset tb pk (.file (some d)))) t pk
            (some c) (some d) = .error .recordNotFound := h2
        rcases updateIndex_err h5 with h6 | h6 <;>
          exact absurd h6 (by decide)
      · have htr2 : docTruthy cur = false := by simpa using htr
        exact ⟨cur, rfl, htr2⟩
  · rintro ⟨cur, hg, htr⟩
    exact hfail cur hg htr
  · intro cur hg htr
    rw [applyOp_update_eq, hfail cur hg htr]
  · intro c hg hcne hcw hdw tb hft hgb
    obtain ⟨hno, hne, tb2, hft2, hpk⟩ := get_ok_some hg
    have htb : tb2 = tb := by
      rw [hft2] at hft
      injection hft
    subst htb
    have htr : docTruthy (some c) = true := docTruthy_some hcne
    unfold update
    rw [hg]
    have h1 : (if (!docTruthy (some c)) = true
        then Except.error (α := FS) Err.recordNotFound
        else match write fs t pk d with
          | .error e => .error e
          | .ok fs1 => updateIndex fs1 t pk (some c) (some d))
        = .ok (syncApply (aset fs t (aset tb2 pk (.file (some d)))) t pk
          (some c) (some d)) := by
      rw [htr]
      show (match write fs t pk d with
        | .error e => Except.error (α := FS) e
        | .ok fs1 => updateIndex fs1 t pk (some c) (some d)) = _
      rw [write_ok d hno hne hft2]
      show updateIndex (aset fs t (aset tb2 pk (.file (some d)))) t pk
        (some c) (some d) = _
      have hG : GoodTable (aset tb2 pk (.file (some d))) :=
        goodTable_aset_file (goodTableB_spec hgb) pk _
      exact updateIndex_wf_ok pk (some c) (some d)
        (alookup_aset_self fs t _) hG (docWfB_nd_plain (docWfB_plain hdw))
    exact h1

/-- Witness for C4: updating a missing key of a concrete store fails with
RecordNotFound. -/
theorem C4_witness : update cSt0 "t" "k" [] = .error .recordNotFound :=
  (C4_update cSt0 "t" "k" []).1.mpr ⟨none, by decide, by decide⟩

/-- Claim C5, counterexample: on a table holding only the stray index
directory `@@x` (as `create_index("t", "@x")` builds it), inserting a
document with the field `"x"` under a fresh safe key does not succeed
and does not fail with AlreadyExists: `_update_index` computes the field
`"x"` by `lstrip("@")` but `_index` re-resolves `"@x"`, which does not
exist, so the real call raises `FileNotFoundError` *after* the record
file was written — refuting "otherwise it writes the document and then
updates indexes". -/
theorem C5_counterexample :
    c5fs = [("t", [("@@x", Entry.idx [])])] ∧
      nameOk "t" "k" = true ∧ targetExists c5fs "t" "k" = false ∧
      insert c5fs "t" "k" [("x", "v")] = .error .indexError := by
  refine ⟨by decide, by decide, by decide, by decide⟩

/-- Claim C5 (amended): `insert` fails with AlreadyExists exactly when
something exists at the target path `root/table/pk` (the code's notion
of "a record at `pk` is already present"), names permitting, and in
that failing case the store — and so the prior document — is untouched;
when nothing is present, the document's values are well-formed entry
names, and the table's `@`-directories are well-formed single-`@` index
directories, it writes the document and then updates the indexes
treating the prior state as absent; but when the index entry cannot be
created (a stray multi-`@` directory, an ill-formed value) the
operation raises *after* the record file has been written, so a failed
insert is not always a no-op. -/
theorem C5_insert :
    ∀ (fs : FS) (t pk : String) (d : Doc),
      (insert fs t pk d = .error .alreadyExists ↔
        (nameOk t pk = true ∧ targetExists fs t pk = true)) ∧
      (insert fs t pk d = .error .alreadyExists →
        applyOp fs (.insert t pk d) = fs) ∧
      (nameOk t pk = true → targetExists fs t pk = false → docWfB d = true →
        ∀ tb, alookup fs t = some tb → goodTableB tb = true →
          insert fs t pk d = .ok (syncApply
            (aset fs t (aset tb pk (.file (some d)))) t pk none (some d))) := by
  intro fs t pk d
  have hsucc : nameOk t pk = true → targetExists fs t pk = false →
      docWfB d = true → ∀ tb, alookup fs t = some tb → goodTableB tb = true →
        insert fs t pk d = .ok (syncApply
          (aset fs t (aset tb pk (.file (some d)))) t pk none (some d)) := by
    intro hno hte hdw tb hft hgb
    have hne : pk ≠ "" := (targetExists_false hte hft).1
    unfold insert
    simp only [hno, hte, Bool.not_true, Bool.false_eq_true, if_false]
    rw [write_ok d hno hne hft]
    show updateIndex (aset fs t (aset tb pk (.file (some d)))) t pk
      none (some d) = _
    have hG : GoodTable (aset tb pk (.file (some d))) :=
      goodTable_aset_file (goodTableB_spec hgb) pk _
    exact updateIndex_wf_ok pk none (some d) (alookup_aset_self fs t _) hG
      (docWfB_nd_plain (docWfB_plain hdw))
  refine ⟨⟨?_, ?_⟩, ?_, hsucc⟩
  · intro h
    by_cases hno : nameOk t pk = true
    · by_cases hte : targetExists fs t pk = true
      · exact ⟨hno, hte⟩
      · have hte2 : targetExists fs t pk = false := by simpa using hte
        unfold insert at h
        simp only [hno, hte2, Bool.not_true, Bool.false_eq_true, if_false] at h
        cases hw : write fs t pk d with
        | error e =>
          rw [hw] at h
          have h2 : e = .alreadyExists := by
            have h3 : Except.error (α := FS) e = .error .alreadyExists := h
            injection h3
          rcases write_err hw with h4 | h4 | h4 <;>
            (rw [h4] at h2; exact absurd h2 (by decide))
        | ok fs1 =>
          rw [hw] at h
          have h5 : updateIndex fs1 t pk none (some d)
              = .error .alreadyExists := h
          rcases updateIndex_err h5 with h6 | h6 <;>
            exact absurd h6 (by decide)
    · rw [insert_badName (by simpa using hno)] at h
      have h2 : Err.unsafeName = Err.alreadyExists := by injection h
      exact absurd h2 (by decide)
  · rintro ⟨hno, hte⟩
    unfold insert
    simp [hno, hte]
  · intro h
    rw [applyOp_insert_eq, h]

/-- Witness for C5: inserting over a present record of a concrete store
fails with AlreadyExists and leaves the store unchanged. -/
theorem C5_witness :
    insert cSt1 "t" "k" [("c", "d")] = .error .alreadyExists ∧
      applyOp cSt1 (.insert "t" "k" [("c", "d")]) = cSt1 := by
  have h := C5_insert cSt1 "t" "k" [("c", "d")]
  have h1 : insert cSt1 "t" "k" [("c", "d")] = .error .alreadyExists :=
    h.1.mpr ⟨by decide, by decide⟩
  exact ⟨h1, h.2.1 h1⟩

/-- Claim C6, counterexample: on an existing table that holds the stray
index directory `@@x` (built by `create_index("u", "@x")`), a safe
unbound key and a valid document do not round-trip: `insert` raises
from `_index` (`FileNotFoundError` in the real code, after the record
write) instead of succeeding — refuting the unqualified round-trip. -/
theorem C6_counterexample :
    alookup c6fs "u" = some [("@@x", Entry.idx [])] ∧
      safeName "k" = true ∧ targetExists c6fs "u" "k" = false ∧
      docWfB [("x", "v")] = true ∧
      insert c6fs "u" "k" [("x", "v")] = .error .indexError := by
  refine ⟨by decide, by decide, by decide, by decide, by decide⟩

/-- Claim C6 (amended): round-trip — on an existing table *whose
`@`-directories are well-formed single-`@` index directories*, inserting
a valid document (safe, non-empty value strings) under a safe unbound
key succeeds, and `get` then returns the document unchanged. -/
theorem C6_roundtrip :
    ∀ (fs : FS) (t pk : String) (d : Doc) (tb : Table),
      safeName t = true → safeName pk = true → pk ≠ "" → docWfB d = true →
      alookup fs t = some tb → goodTableB tb = true →
      targetExists fs t pk = false →
      ∃ fs2, insert fs t pk d = .ok fs2 ∧ get fs2 t pk = .ok (some d) := by
  intro fs t pk d tb hst hsp hne hdw hft hgb hte
  have hno : nameOk t pk = true := by
    simp [nameOk, hst, hsp]
  have hins : insert fs t pk d = .ok (syncApply
      (aset fs t (aset tb pk (.file (some d)))) t pk none (some d)) := by
    unfold insert
    simp only [hno, hte, Bool.not_true, Bool.false_eq_true, if_false]
    rw [write_ok d hno hne hft]
    show updateIndex (aset fs t (aset tb pk (.file (some d)))) t pk
      none (some d) = _
    have hG : GoodTable (aset tb pk (.file (some d))) :=
      goodTable_aset_file (goodTableB_spec hgb) pk _
    exact updateIndex_wf_ok pk none (some d) (alookup_aset_self fs t _) hG
      (docWfB_nd_plain (docWfB_plain hdw))
  refine ⟨_, hins, ?_⟩
  have hupd : syncApply (aset fs t (aset tb pk (.file (some d)))) t pk
        none (some d)
      = aset (aset fs t (aset tb pk (.file (some d)))) t
        ((globDirs (aset tb pk (.file (some d)))).foldl
          (stepApply pk none (some d)) (aset tb pk (.file (some d)))) :=
    syncApply_eq pk none (some d) (alookup_aset_self fs t _)
  have hpkP : alookup (aset tb pk (.file (some d))) pk
      = some (.file (some d)) := alookup_aset_self tb pk _
  have hnonidx : ∀ es, alookup (aset tb pk (.file (some d))) pk
      ≠ some (.idx es) := by
    intro es he
    rw [hpkP] at he
    exact absurd he (by simp)
  have hfold : alookup ((globDirs (aset tb pk (.file (some d)))).foldl
      (stepApply pk none (some d)) (aset tb pk (.file (some d)))) pk
      = some (.file (some d)) := by
    rw [foldl_stepApply_nonidx pk none (some d) _ _ pk hnonidx]
    exact hpkP
  rw [hupd, get_eq_specGet _ _ _ hno,
    specGet_char (alookup_aset_self (aset fs t (aset tb pk (.file (some d)))) t _),
    if_neg hne, hfold]

/-- Witness for C6: a concrete insert-then-get round-trip. -/
theorem C6_witness :
    ∃ fs2, insert cSt0 "t" "k" [("a", "b")] = .ok fs2 ∧
      get fs2 "t" "k" = .ok (some [("a", "b")]) :=
  C6_roundtrip cSt0 "t" "k" [("a", "b")] [] (by decide) (by decide)
    (by decide) (by decide) (by decide) (by decide) (by decide)

/-- Claim C7: for safe names, `get` returns exactly the specification-side
result — the parsed document when the record file exists and parses, and
absent (never a distinct error) when the file is missing, not a plain
file, or fails to parse. -/
theorem C7_get_contract :
    ∀ (fs : FS) (t pk : String),
      safeName t = true → (pk = "" ∨ safeName pk = true) →
      get fs t pk = .ok (specGet fs t pk) := by
  intro fs t pk hst hpk
  apply get_eq_specGet
  rcases hpk with h | h
  · simp [nameOk, hst, h]
  · simp [nameOk, hst, h]

/-- Witness for C7: on a concrete store, a malformed record and a missing
record both read as absent, while a good record parses. -/
theorem C7_witness :
    get c7fs "t" "bad" = .ok none ∧ get c7fs "t" "nothere" = .ok none ∧
      get c7fs "t" "good" = .ok (some [("a", "b")]) := by
  refine ⟨?_, ?_, ?_⟩
  · rw [C7_get_contract c7fs "t" "bad" (by decide) (Or.inr (by decide))]
    decide
  · rw [C7_get_contract c7fs "t" "nothere" (by decide) (Or.inr (by decide))]
    decide
  · rw [C7_get_contract c7fs "t" "good" (by decide) (Or.inr (by decide))]
    decide

/-- Claim C8, counterexample: an index *directory* named `@a:b` (created by
`create_index` on the field `"a:b"`) matches the glob `*:*`, so
`query_links` yields `("@a","b")` from a name that is not a record file —
refuting the claim that only record filenames are enumerated. -/
theorem C8_counterexample :
    query_links c8fsX "t" "*" "*" = [("@a", "b")] ∧
      alookup ((alookup c8fsX "t").getD []) "@a:b" = some (.idx []) ∧
      scan c8fsX "t" "*" = .ok [] := by
  refine ⟨by decide, by decide, by decide⟩

/-- Claim C8 (amended): for a plain table name and single-segment,
class-free glob halves (no `/`, `[` or `**` — a `/` in the pattern makes
the real glob descend into subdirectories such as index directories, and
`[` classes are outside the modelled fragment), `query_links` enumerates
exactly the names of the directory entries (files *and* directories) of
the table matching the glob `"<left>:<right>"` that contain a colon,
splitting each at its first colon; after `link("people","a","people","b")`
on existing endpoints it yields exactly `[("a","b")]`, and
`scan("people")` does not include `"a:b"`. -/
theorem C8_query_links :
    (∀ (fs : FS) (t l r : String) (ab : String × String),
      plainSeg t = true →
      strContains l "/" = false → strContains r "/" = false →
      strContains l "[" = false → strContains r "[" = false →
      strContains l "**" = false → strContains r "**" = false →
      (ab ∈ query_links fs t l r ↔
        ∃ tb n, alookup fs t = some tb ∧ n ∈ tb.map Prod.fst ∧
          globMatch (l ++ ":" ++ r) n = true ∧ strContains n ":" = true ∧
          splitColon n = ab)) ∧
    query_links (runOps [] c8ops) "people" "*" "*" = [("a", "b")] ∧
    scan (runOps [] c8ops) "people" "*" = .ok [("a", []), ("b", [])] := by
  refine ⟨?_, by decide, by decide⟩
  intro fs t l r ab hp h1 h2 h3 h4 h5 h6
  unfold query_links
  cases hft : alookup fs t with
  | none => simp [hft]
  | some tb =>
    simp only [List.mem_map, List.mem_filter, Bool.and_eq_true]
    constructor
    · rintro ⟨n, ⟨hn, hg, hc⟩, hs⟩
      exact ⟨tb, n, rfl, hn, hg, hc, hs⟩
    · rintro ⟨tb2, n, htb2, hn, hg, hc, hs⟩
      have he : tb2 = tb := by
        injection htb2 with h7
        exact h7.symm
      subst he
      exact ⟨n, ⟨hn, hg, hc⟩, hs⟩

/-- Witness for C8: on the concrete link scenario, the compound entry
`"a:b"` is enumerated and splits into `("a","b")`. -/
theorem C8_witness :
    ∃ tb n, alookup (runOps [] c8ops) "people" = some tb ∧
      n ∈ tb.map Prod.fst ∧
      globMatch ("*" ++ ":" ++ "*") n = true ∧ strContains n ":" = true ∧
      splitColon n = ("a", "b") :=
  (C8_query_links.1 (runOps [] c8ops) "people" "*" "*" ("a", "b")
    (by decide) (by decide) (by decide) (by decide) (by decide) (by decide)
    (by decide)).mp (by decide)

/-- Claim C9: on an existing table, the empty key is not validated and the
built path is the table directory itself, so `insert` always fails with
AlreadyExists even though no record is stored there, and `get` always
returns absent. -/
theorem C9_empty_key :
    ∀ (fs : FS) (t : String) (d : Doc) (tb : Table),
      safeName t = true → alookup fs t = some tb →
      insert fs t "" d = .error .alreadyExists ∧ get fs t "" = .ok none := by
  intro fs t d tb hst hft
  have hno : nameOk t "" = true := by
    simp [nameOk, hst]
  have hte : targetExists fs t "" = true := by
    unfold targetExists
    rw [hft]
    show (if ("" : String) = "" then true else (alookup tb "").isSome) = true
    rw [if_pos rfl]
  constructor
  · unfold insert
    simp [hno, hte]
  · rw [get_eq_specGet _ _ _ hno, specGet_char hft, if_pos rfl]

/-- Witness for C9: concrete empty-key behaviour on an existing table. -/
theorem C9_witness :
    insert cSt0 "t" "" [("a", "b")] = .error .alreadyExists ∧
      get cSt0 "t" "" = .ok none :=
  C9_empty_key cSt0 "t" [("a", "b")] [] (by decide) (by decide)

/-- Claim C10: `lspk` raises TableNotFound when the table directory does
not exist — rather than returning an empty sequence — and on an existing
table returns exactly the names of its plain files whose name contains no
colon. -/
theorem C10_lspk :
    ∀ (fs : FS) (t : String), safeName t = true →
      (alookup fs t = none → lspk fs t = .error .tableNotFound) ∧
      (∀ tb, alookup fs t = some tb → keysND tb →
        ∃ l, lspk fs t = .ok l ∧
          ∀ n, n ∈ l ↔
            ((∃ c, alookup tb n = some (.file c)) ∧
              strContains n ":" = false)) := by
  intro fs t hst
  constructor
  · intro h
    unfold lspk
    rw [h]
  · intro tb hft hnd
    refine ⟨_, by unfold lspk; rw [hft], ?_⟩
    intro n
    simp only [List.mem_map, List.mem_filter, Bool.and_eq_true]
    constructor
    · rintro ⟨⟨n0, e⟩, ⟨hmem, hfile, hcol⟩, hn⟩
      have hn2 : n0 = n := hn
      subst hn2
      cases e with
      | idx es => exact absurd hfile (by simp)
      | file c =>
        refine ⟨⟨c, alookup_of_mem_nd hnd hmem⟩, ?_⟩
        simpa using hcol
    · rintro ⟨⟨c, hc⟩, hcol⟩
      refine ⟨(n, .file c), ⟨alookup_mem hc, rfl, ?_⟩, rfl⟩
      simpa using hcol

/-- Witness for C10: a missing table raises TableNotFound, and a concrete
table lists exactly its colon-free plain files. -/
theorem C10_witness :
    lspk ([] : FS) "t" = .error .tableNotFound ∧
      ∃ l, lspk c7fs "t" = .ok l ∧
        ∀ n, n ∈ l ↔
          ((∃ c, alookup [("bad", Entry.file none),
              ("good", Entry.file (some [("a", "b")]))] n
            = some (.file c)) ∧ strContains n ":" = false) := by
  refine ⟨(C10_lspk [] "t" (by decide)).1 rfl, ?_⟩
  exact (C10_lspk c7fs "t" (by decide)).2
    [("bad", .file none), ("good", .file (some [("a", "b")]))]
    (by decide) (by decide)

end Fsdb
